import Mathlib

/-!
# Verification of the RPC-discovery and liveness logic of `src/lib/rpc-utils.ts`

This file gives a shallow embedding, in Lean 4, of the non-UI logic of the
`eth-tools` repository (`src/lib/rpc-utils.ts`):

* the chain-metadata extractor (`extractObject` and `fetchChainData`),
* the RPC-endpoint extractor (`fetchRpcData`'s regex-based scraping loop), and
* the RPC liveness prober (`findWorkingRpc`).

Text is modelled as `List Char` (abbreviated `LC`), JavaScript records as
association lists, and the network layer (HTTP fetches, probe outcomes) as
explicit inputs to the embedded functions: a probe is an oracle
`String → Bool` giving each candidate's settled outcome, and a fetch is a
`FetchResult` carrying either the response body or a failure mode.  The
JavaScript regular expressions used by the source are translated to
character-list scanners whose backtracking behaviour mirrors the originals
for the relevant pattern shapes; those translations are documented inline.
-/

namespace EthTools

abbrev LC := List Char

/-- Coerce a Lean string literal to the `List Char` representation of text. -/
def str (s : String) : LC := s.data

/-! ## Liveness prober: `findWorkingRpc` (rpc-utils.ts lines 292-338)

`findWorkingRpc` issues one JSON-RPC probe per candidate URL and awaits
`Promise.allSettled` of them.  `Promise.allSettled` always resolves with the
settled statuses *in input order* (never in response-time order), so the
embedding represents the settled test results as a list aligned with the
input list: candidate `rpc` settles as `Except.ok rpc` when its probe
succeeded (HTTP 2xx within the 3s budget) and as `Except.error _` on any
network error, non-2xx status, or timeout.  The per-candidate timing is
irrelevant to the returned value and hence does not appear in the model. -/

/-- Settled outcome of probing one candidate, as the source's `testResults`
entries: `fulfilled` with the URL itself, or `rejected`. -/
def probeSettled (probe : String → Bool) (rpc : String) : Except String String :=
  if probe rpc then Except.ok rpc else Except.error ("RPC " ++ rpc ++ " failed")

/-- The source's loop `for (const result of testResults) if fulfilled return value`:
first fulfilled value in input order, if any. -/
def firstFulfilled : List (Except String String) → Option String
  | [] => none
  | Except.ok v :: _ => some v
  | Except.error _ :: rest => firstFulfilled rest

/-- Result of a `findWorkingRpc` call: the returned value (or thrown error),
together with whether the `'All RPCs failed, using fallback'` warning was
logged. -/
structure ProbeRun where
  outcome : Except String String
  allFailedWarning : Bool
deriving Repr

/-- Embedding of `findWorkingRpc` (rpc-utils.ts 292-338): throw on an empty
candidate list; otherwise await all probes and return the first fulfilled
one by input position; if none fulfilled, warn and return `rpcs[0]`. -/
def findWorkingRpc (probe : String → Bool) (rpcs : List String) : ProbeRun :=
  match rpcs with
  | [] => { outcome := Except.error "No RPCs provided", allFailedWarning := false }
  | r0 :: rest =>
    let testResults := (r0 :: rest).map (probeSettled probe)
    match firstFulfilled testResults with
    | some v => { outcome := Except.ok v, allFailedWarning := false }
    | none => { outcome := Except.ok r0, allFailedWarning := true }

/-- `true` iff an `Except` value is a success. -/
def exOk : Except String String → Bool
  | Except.ok _ => true
  | Except.error _ => false

/-! ## Chain-metadata extractor: `extractObject` (rpc-utils.ts lines 28-53)

`extractObject` slices the fetched text between its first `\x7b` and last
`\x7d`, rewrites the slice towards JSON with four regex replacements, and
`JSON.parse`s the result (returning `\x7b\x7d` on any internal failure).
Each replacement is translated to a character-list scanner below; the
translation of each regex documents how the original's greedy/backtracking
behaviour is captured. -/

/-- JavaScript `\s` (ASCII part, which is all the scraped sources contain). -/
def isJsWs (c : Char) : Bool :=
  c == ' ' || c == '\t' || c == '\n' || c == '\r' || c == '\x0b' || c == '\x0c'

/-- JavaScript word-character class `[a-zA-Z0-9_]`. -/
def isWordChar (c : Char) : Bool := c.isAlphanum || c == '_'

/-- One of the two JavaScript string delimiters `['"]`. -/
def isQuoteChar (c : Char) : Bool := c == '\'' || c == '"'

/-- Consume the rest of the current line (exclusive of the newline), as the
`.*$` part of the comment regex does (`.` does not match `\n`). -/
def dropToEol : LC → LC
  | [] => []
  | c :: rest => if c = '\n' then c :: rest else dropToEol rest

/-- Fuelled worker for `stripComments`; fuel is an upper bound on the input
length, so the fuel-exhausted branch is never taken from `stripComments`. -/
def stripCommentsAux : Nat → LC → LC
  | 0, l => l
  | _ + 1, [] => []
  | fuel + 1, c :: rest =>
    if c = '/' ∧ rest.head? = some '/' then stripCommentsAux fuel (dropToEol rest.tail)
    else c :: stripCommentsAux fuel rest

/-- `.replace(/\/\/.*$/gm, '')`: at each position, a `//` starts a comment
that is deleted up to (excluding) the end of its line; scanning resumes at
the newline. -/
def stripComments (l : LC) : LC := stripCommentsAux l.length l

/-- Does `\s*[\x7d\]]` match here?  Used by the trailing-comma regex: after
a comma, skip whitespace greedily and require a closing bracket.  (Greedy
`\s*` needs no backtracking: no whitespace character is a closing
bracket.) -/
def closesAhead (l : LC) : Bool :=
  match l.dropWhile isJsWs with
  | c :: _ => c == '\x7d' || c == ']'
  | [] => false

/-- `.replace(/,(\s*[\x7d\]])/g, '$1')`: drop each comma that is followed by
optional whitespace and a closing bracket.  The kept `$1` text contains no
comma, so resuming the scan right after the dropped comma is equivalent to
resuming after the whole match as the JavaScript engine does. -/
def stripTrailingCommas : LC → LC
  | [] => []
  | c :: rest =>
    if c = ',' ∧ closesAhead rest then stripTrailingCommas rest
    else c :: stripTrailingCommas rest

/-- Consume one optional string delimiter, as `(['"])?` does. -/
def stripQuote : LC → LC
  | [] => []
  | c :: rest => if isQuoteChar c then rest else c :: rest

/-- Try to match `(['"])?([a-zA-Z0-9_]+)(['"])?:` at the head of `l`,
returning the captured word and the remainder after the `:`.
Greedy matching without backtracking is faithful here: a word character is
never a delimiter or `:`, so shrinking the `+` run or un-taking an optional
delimiter can never turn a failure into a match. -/
def tryKeyMatch (l : LC) : Option (LC × LC) :=
  if ((stripQuote l).takeWhile isWordChar).isEmpty then none
  else
    match stripQuote ((stripQuote l).dropWhile isWordChar) with
    | ':' :: r => some ((stripQuote l).takeWhile isWordChar, r)
    | _ => none

/-- Fuelled worker for `quoteKeys`; fuel bounds the input length. -/
def quoteKeysAux : Nat → LC → LC
  | 0, l => l
  | _ + 1, [] => []
  | fuel + 1, c :: rest =>
    match tryKeyMatch (c :: rest) with
    | some (w, r) => '"' :: (w ++ '"' :: ':' :: quoteKeysAux fuel r)
    | none => c :: quoteKeysAux fuel rest

/-- `.replace(/(['"])?([a-zA-Z0-9_]+)(['"])?:/g, '"$2":')`: rewrite each key
(bare, single- or double-quoted) into a double-quoted key. -/
def quoteKeys (l : LC) : LC := quoteKeysAux l.length l

/-- `.replace(/'/g, '"')`: convert single-quote delimiters to double. -/
def toDoubleQuotes (l : LC) : LC := l.map (fun c => if c = '\'' then '"' else c)

/-- `String.prototype.indexOf` for a single character. -/
def firstIdxOf (c : Char) : LC → Option Nat
  | [] => none
  | d :: rest => if d = c then some 0 else (firstIdxOf c rest).map (· + 1)

/-- `String.prototype.lastIndexOf` for a single character. -/
def lastIdxOf (c : Char) (l : LC) : Option Nat :=
  (firstIdxOf c l.reverse).map (fun i => l.length - 1 - i)

/-- `String.prototype.substring`, which clamps and swaps its arguments. -/
def jsSubstring (l : LC) (a b : Nat) : LC := (l.take (max a b)).drop (min a b)

/-- Lines 31-38 of rpc-utils.ts: `content.substring(content.indexOf('\x7b'),
content.lastIndexOf('\x7d') + 1)`, throwing (`none`) when `\x7b` is absent.
When `\x7d` is absent, `lastIndexOf` is `-1`, the computed end index is `0`,
and JavaScript `substring` swaps the arguments. -/
def extractSlice (l : LC) : Option LC :=
  match firstIdxOf '\x7b' l with
  | none => none
  | some i =>
    match lastIdxOf '\x7d' l with
    | none => some (jsSubstring l i 0)
    | some j => some (jsSubstring l i (j + 1))

/-! The call `JSON.parse(jsonStr)` is modelled by a parser for the fragment
of JSON the normalized chain-ID object lives in: a single object whose keys
and values are escape-free strings.  On anything outside the fragment
(arrays, numbers, escapes, nested objects) the model returns `none`, which
the caller treats like a thrown `SyntaxError` — the same empty-object result
the source produces on every abnormal shape it can reach. -/

/-- JSON insignificant whitespace. -/
def isJsonWs (c : Char) : Bool := c == ' ' || c == '\t' || c == '\n' || c == '\r'

/-- Skip JSON whitespace. -/
def skipWs (l : LC) : LC := l.dropWhile isJsonWs

/-- Parse a double-quoted, escape-free JSON string at the head of `l`. -/
def parseJsonString : LC → Option (LC × LC)
  | '"' :: rest =>
    match rest.dropWhile (fun c => !(c == '"' || c == '\\')) with
    | '"' :: r => some (rest.takeWhile (fun c => !(c == '"' || c == '\\')), r)
    | _ => none
  | _ => none

/-- Fuelled worker parsing `string : string` members separated by commas and
terminated by `\x7d`; returns the members and the remainder after `\x7d`.
Fuel bounds the input length (each member consumes at least one
character). -/
def parseMembersAux : Nat → LC → Option (List (LC × LC) × LC)
  | 0, _ => none
  | fuel + 1, l =>
    match parseJsonString l with
    | none => none
    | some (k, r1) =>
      match skipWs r1 with
      | ':' :: r3 =>
        match parseJsonString (skipWs r3) with
        | none => none
        | some (v, r5) =>
          match skipWs r5 with
          | ',' :: r7 =>
            match parseMembersAux fuel (skipWs r7) with
            | none => none
            | some (kvs, rem) => some ((k, v) :: kvs, rem)
          | '\x7d' :: r7 => some ([(k, v)], r7)
          | _ => none
      | _ => none

/-- Parse the member list of a flat string-to-string object. -/
def parseMembers (l : LC) : Option (List (LC × LC) × LC) := parseMembersAux l.length l

/-- Parse a whole document that is one flat string-to-string object,
requiring only whitespace after the closing `\x7d` (as `JSON.parse` does). -/
def parseJsonFlat (l : LC) : Option (List (LC × LC)) :=
  match skipWs l with
  | '\x7b' :: r =>
    match skipWs r with
    | '\x7d' :: r2 => if skipWs r2 = [] then some [] else none
    | _ =>
      match parseMembers (skipWs r) with
      | some (kvs, rem) => if skipWs rem = [] then some kvs else none
      | none => none
  | _ => none

/-- `extractObject` up to its internal `catch`: `none` is a thrown error. -/
def extractObjectCore (content : LC) : Option (List (LC × LC)) :=
  match extractSlice content with
  | none => none
  | some objStr =>
    parseJsonFlat (toDoubleQuotes (quoteKeys (stripTrailingCommas (stripComments objStr))))

/-- Embedding of `extractObject` (rpc-utils.ts 28-53): the parsed chain-ID
mapping in text order, or the empty mapping when anything failed (the
internal `catch` branch). -/
def extractObject (content : LC) : List (LC × LC) :=
  (extractObjectCore content).getD []

/-! ## `fetchChainData` (rpc-utils.ts lines 13-129)

The network fetch is an input: a `FetchResult` is either the response body
(`ok`, i.e. HTTP 2xx with readable text) or one of the failure modes that
make the `try` block throw — a non-2xx status (`notOk`, line 21-23) or a
network/body-read failure (`netErr`).  JavaScript record values are
association lists in object-iteration order; property assignment is
`setA` (overwrite in place, append when new) and property read is
`lookupA`. -/

/-- JavaScript property assignment on a record: overwrite in place, append
when the key is new. -/
def setA {α β : Type} [DecidableEq α] : List (α × β) → α → β → List (α × β)
  | [], k, v => [(k, v)]
  | (k0, v0) :: rest, k, v =>
    if k0 = k then (k0, v) :: rest else (k0, v0) :: setA rest k v

/-- JavaScript property read on a record. -/
def lookupA {α β : Type} [DecidableEq α] : List (α × β) → α → Option β
  | [], _ => none
  | (k0, v0) :: rest, k => if k0 = k then some v0 else lookupA rest k

/-- The record's keys in iteration order. -/
def keysA {α β : Type} (l : List (α × β)) : List α := l.map (fun p => p.1)

/-- The fixed `popularNetworks` list (rpc-utils.ts 57-60). -/
def popularNetworks : List LC :=
  [str "ethereum", str "arbitrum", str "optimism", str "polygon", str "base",
   str "avalanche", str "binance", str "fantom", str "gnosis", str "zksync"]

/-- `Set.prototype.add`: insertion order, first occurrence kept. -/
def insertDedup (seen : List LC) (x : LC) : List LC :=
  if x ∈ seen then seen else seen ++ [x]

/-- `new Set(...)` built by iterating `Object.values(chainIds)` (lines
63-66): distinct values in first-occurrence order. -/
def dedupFirstOcc (l : List LC) : List LC := l.foldl insertDedup []

/-- The distinct network keys of the mapping, in first-occurrence order. -/
def allNetworksOf (chainIds : List (LC × LC)) : List LC :=
  dedupFirstOcc (chainIds.map (fun p => p.2))

/-- The prioritized network list (rpc-utils.ts 69-72): popular networks that
are present, then all other present networks in set-iteration order. -/
def buildNetworkList (chainIds : List (LC × LC)) : List LC :=
  popularNetworks.filter (fun n => decide (n ∈ allNetworksOf chainIds))
    ++ (allNetworksOf chainIds).filter (fun n => decide (n ∉ popularNetworks))

/-- The explorer URL assigned to one network key (rpc-utils.ts 79-103). -/
def explorerFor (network : LC) : LC :=
  if network = str "ethereum" then str "https://etherscan.io/tx/"
  else if network = str "binance" then str "https://bscscan.com/tx/"
  else if network = str "polygon" then str "https://polygonscan.com/tx/"
  else if network = str "arbitrum" then str "https://arbiscan.io/tx/"
  else if network = str "optimism" then str "https://optimistic.etherscan.io/tx/"
  else if network = str "base" then str "https://basescan.org/tx/"
  else if network = str "avalanche" then str "https://snowtrace.io/tx/"
  else if network = str "fantom" then str "https://ftmscan.com/tx/"
  else if network = str "gnosis" then str "https://gnosisscan.io/tx/"
  else if network = str "zksync" then str "https://explorer.zksync.io/tx/"
  else str "https://" ++ network ++ str "scan.com/tx/"

/-- The explorers record (rpc-utils.ts 75-104): one assignment per mapping
entry, keyed by the entry's network key. -/
def buildExplorers (chainIds : List (LC × LC)) : List (LC × LC) :=
  chainIds.foldl (fun acc p => setA acc p.2 (explorerFor p.2)) []

/-- The value `fetchChainData` resolves with. -/
structure ChainData where
  chainIds : List (LC × LC)
  explorers : List (LC × LC)
  networkList : List LC
deriving DecidableEq, Repr

/-- Outcome of the metadata HTTP fetch, an input of the embedding. -/
inductive FetchResult where
  | ok (body : LC)
  | notOk
  | netErr
deriving DecidableEq, Repr

/-- The hardcoded fallback data (rpc-utils.ts 110-127). -/
def fallbackChainData : ChainData :=
  { chainIds :=
      [(str "1", str "ethereum"), (str "10", str "optimism"), (str "137", str "polygon"),
       (str "42161", str "arbitrum"), (str "8453", str "base")]
    explorers :=
      [(str "ethereum", str "https://etherscan.io/tx/"),
       (str "optimism", str "https://optimistic.etherscan.io/tx/"),
       (str "polygon", str "https://polygonscan.com/tx/"),
       (str "arbitrum", str "https://arbiscan.io/tx/"),
       (str "base", str "https://basescan.org/tx/")]
    networkList :=
      [str "ethereum", str "arbitrum", str "optimism", str "polygon", str "base"] }

/-- Embedding of `fetchChainData` (rpc-utils.ts 13-129).  A fetch-level
failure (non-2xx, which the source turns into a `throw`, or a network/read
error) lands in the `catch` and yields the fallback.  On a readable body the
function never throws: `extractObject` catches its own parse errors and
returns the empty mapping, and the rest of the body is total. -/
def fetchChainData : FetchResult → ChainData
  | FetchResult.ok body =>
    { chainIds := extractObject body
      explorers := buildExplorers (extractObject body)
      networkList := buildNetworkList (extractObject body) }
  | FetchResult.notOk => fallbackChainData
  | FetchResult.netErr => fallbackChainData

/-! ## RPC-endpoint extractor: `fetchRpcData` (rpc-utils.ts lines 132-263)

`fetchRpcData` consumes the chain-ID mapping produced by `fetchChainData`
(whose keys are, in the upstream data, canonical decimal chain-ID strings;
the embedding takes them as the naturals they denote, so that the source's
`parseInt(chainId, 10)` followed by `chainId.toString()` is the identity and
`chainIdStr` is `Nat.repr`).  Per chain ID it matches the dynamic regex
`chainId:\s*\x7b[^\x7d]*rpcs:\s*\[([^\]]+)\]` against the fetched text and
extracts URLs from the captured array body with three global regexes.  The
scanners below translate those regexes; backtracking arises only in the
greedy `[^\x7d]*`, which `windowSearch` reproduces by trying the longest
consumable span first. -/

/-- Match a literal character sequence at the head of the text, returning
the remainder. -/
def stripLit : LC → LC → Option LC
  | [], l => some l
  | _ :: _, [] => none
  | p :: ps, c :: rest => if c = p then stripLit ps rest else none

/-- Try to match `rpcs:\s*\[([^\]]+)\]` at the head of `l`, returning the
capture.  The greedy `[^\]]+` run is cut off by the first `]`, so no
backtracking can occur inside it. -/
def tryRpcsAt (l : LC) : Option LC :=
  match stripLit (str "rpcs:") l with
  | none => none
  | some l1 =>
    match l1.dropWhile isJsWs with
    | '[' :: l2 =>
      match l2.dropWhile (fun c => !(c == ']')) with
      | ']' :: _ =>
        if (l2.takeWhile (fun c => !(c == ']'))).isEmpty then none
        else some (l2.takeWhile (fun c => !(c == ']')))
      | _ => none
    | _ => none

/-- Try to match `name:\s*["']([^"']+)["']` at the head of `l`. -/
def tryNameAt (l : LC) : Option LC :=
  match stripLit (str "name:") l with
  | none => none
  | some l1 =>
    match l1.dropWhile isJsWs with
    | c :: l2 =>
      if isQuoteChar c then
        if (l2.takeWhile (fun d => !(isQuoteChar d))).isEmpty then none
        else
          match l2.dropWhile (fun d => !(isQuoteChar d)) with
          | _ :: _ => some (l2.takeWhile (fun d => !(isQuoteChar d)))
          | [] => none
      else none
    | [] => none

/-- The greedy `[^\x7d]*` followed by the tail pattern `tryAt`: consume any
run of non-`\x7d` characters, preferring the longest (the JavaScript engine
backtracks from the longest run), and hand the remaining text — which may
itself contain `\x7d`, e.g. inside a capture — to `tryAt`. -/
def windowSearch (tryAt : LC → Option LC) : LC → Option LC
  | [] => tryAt []
  | c :: rest =>
    match (if c = '\x7d' then none else windowSearch tryAt rest) with
    | some cap => some cap
    | none => tryAt (c :: rest)

/-- Try to match `chainIdStr:\s*\x7b[^\x7d]*<tail>` at the head of `l`.
Greedy `\s*` needs no backtracking: whitespace is never `\x7b`. -/
def tryChainHereWith (tryAt : LC → Option LC) (cidStr : LC) (l : LC) : Option LC :=
  match stripLit cidStr l with
  | none => none
  | some l1 =>
    match l1 with
    | ':' :: l2 =>
      match l2.dropWhile isJsWs with
      | '\x7b' :: l3 => windowSearch tryAt l3
      | _ => none
    | _ => none

/-- `String.prototype.match` without the `g` flag: the match at the leftmost
position where one exists. -/
def scanFor (tryHere : LC → Option LC) : LC → Option LC
  | [] => none
  | c :: rest =>
    match tryHere (c :: rest) with
    | some cap => some cap
    | none => scanFor tryHere rest

/-- The `match[1]` capture of the dynamic rpcs regex for a chain ID
(rpc-utils.ts 168-169), if the regex matches. -/
def matchChainRpcs (cid : Nat) (text : LC) : Option LC :=
  scanFor (tryChainHereWith tryRpcsAt (str (Nat.repr cid))) text

/-- The `nameMatch[1]` capture of the dynamic name regex for a chain ID
(rpc-utils.ts 202-203), if the regex matches. -/
def matchChainName (cid : Nat) (text : LC) : Option LC :=
  scanFor (tryChainHereWith tryNameAt (str (Nat.repr cid))) text

/-- Fuelled worker for the global regex `/'([^']+)'/g`: each match captures
a nonempty single-quote-free run between two single quotes, and scanning
resumes after the closing quote; a failed attempt advances one character.
Fuel bounds the input length. -/
def scanSinglesAux : Nat → LC → List LC
  | 0, _ => []
  | _ + 1, [] => []
  | fuel + 1, c :: rest =>
    if c = '\''
        ∧ (rest.dropWhile (fun d => !(d == '\''))).head? = some '\''
        ∧ ¬(rest.takeWhile (fun d => !(d == '\''))).isEmpty then
      rest.takeWhile (fun d => !(d == '\''))
        :: scanSinglesAux fuel (rest.dropWhile (fun d => !(d == '\''))).tail
    else scanSinglesAux fuel rest

/-- All captures of `/'([^']+)'/g` over `l` (rpc-utils.ts 177-181). -/
def scanSingles (l : LC) : List LC := scanSinglesAux l.length l

/-- Fuelled worker for the global regex `/"([^"]+)"/g`. -/
def scanDoublesAux : Nat → LC → List LC
  | 0, _ => []
  | _ + 1, [] => []
  | fuel + 1, c :: rest =>
    if c = '"'
        ∧ (rest.dropWhile (fun d => !(d == '"'))).head? = some '"'
        ∧ ¬(rest.takeWhile (fun d => !(d == '"'))).isEmpty then
      rest.takeWhile (fun d => !(d == '"'))
        :: scanDoublesAux fuel (rest.dropWhile (fun d => !(d == '"'))).tail
    else scanDoublesAux fuel rest

/-- All captures of `/"([^"]+)"/g` over `l` (rpc-utils.ts 191-193). -/
def scanDoubles (l : LC) : List LC := scanDoublesAux l.length l

/-- Try to match `url:\s*'([^']+)'` at the head of `l`, returning the
capture and the remainder after the closing quote. -/
def tryUrlAt (l : LC) : Option (LC × LC) :=
  match stripLit (str "url:") l with
  | none => none
  | some l1 =>
    match l1.dropWhile isJsWs with
    | '\'' :: l2 =>
      match l2.dropWhile (fun d => !(d == '\'')) with
      | '\'' :: r2 =>
        if (l2.takeWhile (fun d => !(d == '\''))).isEmpty then none
        else some (l2.takeWhile (fun d => !(d == '\'')), r2)
      | _ => none
    | _ => none

/-- Fuelled worker for the global regex `/url:\s*'([^']+)'/g`. -/
def scanUrlFieldsAux : Nat → LC → List LC
  | 0, _ => []
  | _ + 1, [] => []
  | fuel + 1, c :: rest =>
    match tryUrlAt (c :: rest) with
    | some (u, r2) => u :: scanUrlFieldsAux fuel r2
    | none => scanUrlFieldsAux fuel rest

/-- All captures of `/url:\s*'([^']+)'/g` over `l` (rpc-utils.ts 184-188). -/
def scanUrlFields (l : LC) : List LC := scanUrlFieldsAux l.length l

/-- `String.prototype.startsWith`. -/
def startsWithLit (p l : LC) : Bool := (stripLit p l).isSome

/-- `String.prototype.includes`. -/
def containsLit (p : LC) : LC → Bool
  | [] => (stripLit p ([] : LC)).isSome
  | c :: rest => (stripLit p (c :: rest)).isSome || containsLit p rest

/-- The URLs recovered from one captured `rpcs` array body, in the source's
discovery order (rpc-utils.ts 172-199): all bare single-quoted strings, then
all `url:`-field values, then all double-quoted strings that start with
`http` and do not contain `privacy`. -/
def extractUrlsFromCapture (rpcSection : LC) : List LC :=
  scanSingles rpcSection
    ++ scanUrlFields rpcSection
    ++ (scanDoubles rpcSection).filter
        (fun u => startsWithLit (str "http") u && !(containsLit (str "privacy") u))

/-- All URLs recovered for a chain ID from the RPC-list text: empty when the
rpcs regex does not match. -/
def chainRpcUrls (cid : Nat) (text : LC) : List LC :=
  match matchChainRpcs cid text with
  | none => []
  | some rpcSection => extractUrlsFromCapture rpcSection

/-- `networkKey.charAt(0).toUpperCase() + networkKey.slice(1)`. -/
def capitalizeFirst : LC → LC
  | [] => []
  | c :: rest => c.toUpper :: rest

/-- The display name recorded for a chain (rpc-utils.ts 202-204). -/
def chainNameFor (cid : Nat) (text : LC) (networkKey : LC) : LC :=
  match matchChainName cid text with
  | some n => n
  | none => capitalizeFirst networkKey

/-- The per-network record of the resulting `NetworksMap`. -/
structure NetworkInfo where
  name : LC
  chainId : Nat
  rpcs : List LC
  blockExplorer : LC
deriving DecidableEq, Repr

/-- `networkKeyToChainId` (rpc-utils.ts 158-161): one record assignment per
mapping entry, so a key shared by several chain IDs keeps the last one. -/
def networkKeyToChainId (chainIds : List (Nat × LC)) : List (LC × Nat) :=
  chainIds.foldl (fun acc p => setA acc p.2 p.1) []

/-- The success-path `networksMap` built by `fetchRpcData` (rpc-utils.ts
149-215): per `networkKeyToChainId` entry, match the rpcs regex, extract
URLs and name, and record the network only when at least one URL was
recovered. -/
def networksMapOf (chainIds : List (Nat × LC)) (explorers : List (LC × LC)) (text : LC) :
    List (LC × NetworkInfo) :=
  (networkKeyToChainId chainIds).foldl (fun acc p =>
    match matchChainRpcs p.2 text with
    | none => acc
    | some rpcSection =>
      if extractUrlsFromCapture rpcSection = [] then acc
      else setA acc p.1
        { name := chainNameFor p.2 text p.1
          chainId := p.2
          rpcs := extractUrlsFromCapture rpcSection
          blockExplorer := (lookupA explorers p.1).getD [] }) []

/-- The record value assigned for one `networkKeyToChainId` entry when at
least one URL was recovered (used to restate the `networksMapOf` fold). -/
def infoFor (explorers : List (LC × LC)) (text : LC) (p : LC × Nat) : NetworkInfo :=
  { name := chainNameFor p.2 text p.1
    chainId := p.2
    rpcs := chainRpcUrls p.2 text
    blockExplorer := (lookupA explorers p.1).getD [] }

/-! ### A well-formed chain entry, for settling the extraction claim

`renderRpcEntry cid urls` is RPC-list text holding one chain entry whose
`rpcs` array contains `urls` as bare single-quoted strings, in the shape the
upstream file uses.  `goodUrl` states the well-formedness the claim assumes
of an endpoint URL: nonempty, drawn from ordinary URL characters (hence no
string delimiters, brackets or braces), and not containing the `url:` or
`rpcs:` field markers. -/

/-- Characters ordinary endpoint URLs consist of. -/
def urlChar (c : Char) : Bool :=
  c.isAlphanum || c == ':' || c == '/' || c == '.' || c == '-' || c == '_'

/-- Well-formedness of one endpoint URL in the rendered entry. -/
def goodUrl (u : LC) : Bool :=
  !(u.isEmpty) && u.all urlChar
    && !(containsLit (str "url:") u) && !(containsLit (str "rpcs:") u)

/-- The inner content of the rendered `rpcs` array: the URLs single-quoted
and comma-separated. -/
def joinUrls : List LC → LC
  | [] => []
  | [u] => '\'' :: (u ++ ['\''])
  | u :: v :: rest => '\'' :: (u ++ '\'' :: ',' :: ' ' :: joinUrls (v :: rest))

/-- RPC-list text holding one chain entry with the given `rpcs` array. -/
def renderRpcEntry (cid : Nat) (urls : List LC) : LC :=
  str (Nat.repr cid) ++ str ": \x7b\n  rpcs: [" ++ joinUrls urls ++ str "],\n\x7d"

/-! ### A well-formed embedded object literal, for settling the
extraction/normalization claim

`renderEmbedded kvs` is a text embedding one JavaScript object literal with
the given key/value pairs in the shape the upstream chain-ID file uses:
surrounding `export default`/`;` text, a line comment, bare numeric keys,
single-quoted values, and a trailing comma on the last entry.
`renderJsonDoc kvs` is an equivalent already-valid JSON document with the
same pairs.  `goodKey`/`goodVal` state the well-formedness the claim assumes
of a chain-ID key (a nonempty identifier/number word) and of a network-key
value (an identifier word, which is what the upstream values are). -/

/-- Well-formedness of an embedded-object key. -/
def goodKey (k : LC) : Bool := !(k.isEmpty) && k.all isWordChar

/-- Well-formedness of an embedded-object value. -/
def goodVal (v : LC) : Bool := v.all isWordChar

/-- One rendered entry of the embedded literal: `key: 'value',` on its own
line. -/
def renderEntryE (k v : LC) : LC := k ++ (str ": '" ++ (v ++ str "',\n"))

/-- The rendered entries of the embedded literal. -/
def renderEntriesE : List (LC × LC) → LC
  | [] => []
  | (k, v) :: rest => renderEntryE k v ++ renderEntriesE rest

/-- A text embedding the object literal as the upstream file does. -/
def renderEmbedded (kvs : List (LC × LC)) : LC :=
  str "export default \x7b // chain ids\n" ++ (renderEntriesE kvs ++ str "\x7d;\n")

/-- The members of the equivalent valid JSON document. -/
def joinJsonMembers : List (LC × LC) → LC
  | [] => []
  | [(k, v)] => '"' :: (k ++ ('"' :: ':' :: ' ' :: '"' :: (v ++ ['"'])))
  | (k, v) :: rest =>
    '"' :: (k ++ ('"' :: ':' :: ' ' :: '"' :: (v ++ ('"' :: ',' :: ' ' :: joinJsonMembers rest))))

/-- The equivalent already-valid JSON document with the same pairs. -/
def renderJsonDoc (kvs : List (LC × LC)) : LC :=
  '\x7b' :: (joinJsonMembers kvs ++ ['\x7d'])

/-- The rendered entries after the trailing-comma strip: the last entry (the
one whose comma precedes the closing brace) loses its comma. -/
def entriesNoComma : List (LC × LC) → LC
  | [] => []
  | [(k, v)] => k ++ (str ": '" ++ (v ++ str "'\n"))
  | (k, v) :: rest => renderEntryE k v ++ entriesNoComma rest

/-- The entries after key quoting (values still single-quoted). -/
def entriesQ : List (LC × LC) → LC
  | [] => []
  | [(k, v)] => '"' :: (k ++ ('"' :: ':' :: ' ' :: '\'' :: (v ++ ('\'' :: ['\n']))))
  | (k, v) :: rest =>
    '"' :: (k ++ ('"' :: ':' :: ' ' :: '\'' :: (v ++ ('\'' :: ',' :: '\n' :: entriesQ rest))))

/-- The entries after quote conversion: valid JSON members separated by
`,\n`, the last followed by `\n`. -/
def entriesJson : List (LC × LC) → LC
  | [] => []
  | [(k, v)] => '"' :: (k ++ ('"' :: ':' :: ' ' :: '"' :: (v ++ ('"' :: ['\n']))))
  | (k, v) :: rest =>
    '"' :: (k ++ ('"' :: ':' :: ' ' :: '"' :: (v ++ ('"' :: ',' :: '\n' :: entriesJson rest))))

/-! ## Theorems: liveness prober -/

/-- On any candidate list, `firstFulfilled` over the settled probe results is
the first candidate (by input position) whose probe succeeded. -/
theorem firstFulfilled_map_probeSettled (probe : String → Bool) (rpcs : List String) :
    firstFulfilled (rpcs.map (probeSettled probe)) = rpcs.find? probe := by
  induction rpcs with
  | nil => rfl
  | cons r rest ih =>
    by_cases h : probe r
    · simp [probeSettled, h, firstFulfilled, List.find?]
    · simp only [Bool.not_eq_true] at h
      simp [probeSettled, h, firstFulfilled, List.find?, ih]

/-- C1: `findWorkingRpc` settles every candidate's probe and then returns the
first candidate by input-list position whose probe succeeded (not the first
to respond in time: the settled results are consumed in input order). -/
theorem findWorkingRpc_first_success (probe : String → Bool) (rpcs : List String)
    (u : String) (h : rpcs.find? probe = some u) :
    (findWorkingRpc probe rpcs).outcome = Except.ok u
    ∧ (findWorkingRpc probe rpcs).allFailedWarning = false := by
  cases rpcs with
  | nil => simp [List.find?] at h
  | cons r0 rest =>
    have hff := firstFulfilled_map_probeSettled probe (r0 :: rest)
    rw [h, List.map_cons] at hff
    simp [findWorkingRpc, hff]

/-- C1 witness: `probe(["u1","u2","u3"])` where exactly u2's probe succeeds
returns `"u2"`. -/
theorem findWorkingRpc_first_success_witness :
    (findWorkingRpc (fun s => s == "u2") ["u1", "u2", "u3"]).outcome = Except.ok "u2"
    ∧ (findWorkingRpc (fun s => s == "u2") ["u1", "u2", "u3"]).allFailedWarning = false :=
  findWorkingRpc_first_success (fun s => s == "u2") ["u1", "u2", "u3"] "u2" (by decide)

/-- C2: when every candidate's probe fails, `findWorkingRpc` does not raise:
it logs the all-failed warning and returns the first candidate unmodified. -/
theorem findWorkingRpc_all_fail (probe : String → Bool) (r0 : String) (rest : List String)
    (h : ∀ r ∈ r0 :: rest, probe r = false) :
    (findWorkingRpc probe (r0 :: rest)).outcome = Except.ok r0
    ∧ (findWorkingRpc probe (r0 :: rest)).allFailedWarning = true := by
  have hfind : (r0 :: rest).find? probe = none := by
    rw [List.find?_eq_none]
    intro x hx
    simp [h x hx]
  have hff := firstFulfilled_map_probeSettled probe (r0 :: rest)
  rw [hfind, List.map_cons] at hff
  simp [findWorkingRpc, hff]

/-- C2 witness: `probe(["u1","u2"])` with both probes failing returns `"u1"`
and logs the warning. -/
theorem findWorkingRpc_all_fail_witness :
    (findWorkingRpc (fun _ => false) ["u1", "u2"]).outcome = Except.ok "u1"
    ∧ (findWorkingRpc (fun _ => false) ["u1", "u2"]).allFailedWarning = true :=
  findWorkingRpc_all_fail (fun _ => false) "u1" ["u2"] (by intro r _; rfl)

/-- C3: `findWorkingRpc` throws the explicit `"No RPCs provided"` error
exactly on the empty candidate list, and that is the only input condition
under which its outcome is not a success. -/
theorem findWorkingRpc_error_iff_empty (probe : String → Bool) (rpcs : List String) :
    ((findWorkingRpc probe rpcs).outcome = Except.error "No RPCs provided" ↔ rpcs = [])
    ∧ (exOk (findWorkingRpc probe rpcs).outcome = true ↔ rpcs ≠ []) := by
  cases rpcs with
  | nil => simp [findWorkingRpc, exOk]
  | cons r0 rest =>
    cases hff : firstFulfilled (probeSettled probe r0 :: rest.map (probeSettled probe)) with
    | none => simp [findWorkingRpc, hff, exOk]
    | some v => simp [findWorkingRpc, hff, exOk]

/-! ## Theorems: association-list and set helpers -/

/-- Reading back the key just assigned yields the assigned value. -/
theorem lookupA_setA_self {α β : Type} [DecidableEq α] (l : List (α × β)) (k : α) (v : β) :
    lookupA (setA l k v) k = some v := by
  induction l with
  | nil => simp [setA, lookupA]
  | cons p rest ih =>
    obtain ⟨k0, v0⟩ := p
    by_cases h : k0 = k
    · simp [setA, h, lookupA]
    · simp [setA, h, lookupA, ih]

/-- Assigning one key does not change reads of another. -/
theorem lookupA_setA_ne {α β : Type} [DecidableEq α] (l : List (α × β)) (k k' : α) (v : β)
    (h : k' ≠ k) : lookupA (setA l k v) k' = lookupA l k' := by
  have hks : ¬(k = k') := fun hh => h hh.symm
  induction l with
  | nil => simp [setA, lookupA, hks]
  | cons p rest ih =>
    obtain ⟨k0, v0⟩ := p
    by_cases h0 : k0 = k
    · subst h0
      simp [setA, lookupA, hks]
    · simp only [setA, if_neg h0, lookupA]
      by_cases h1 : k0 = k'
      · simp [h1]
      · simp [h1, ih]

/-- Folding assignments `f p ↦ g p` over a list: a read of `k` sees the value
of the last entry whose key is `k`, falling back to the initial record. -/
theorem lookupA_foldl_setA {α β γ : Type} [DecidableEq α]
    (f : γ → α) (g : γ → β) (l : List γ) (acc : List (α × β)) (k : α) :
    lookupA (l.foldl (fun a p => setA a (f p) (g p)) acc) k =
      (((l.filter (fun p => decide (f p = k))).getLast?.map g).or (lookupA acc k)) := by
  induction l generalizing acc with
  | nil => simp
  | cons p rest ih =>
    rw [List.foldl_cons, ih]
    by_cases hk : f p = k
    · rw [List.filter_cons_of_pos (by simpa using hk)]
      cases hfr : rest.filter (fun q => decide (f q = k)) with
      | nil =>
        subst hk
        simp [lookupA_setA_self]
      | cons x xs =>
        obtain ⟨y, hy⟩ := Option.isSome_iff_exists.mp (List.getLast?_isSome.mpr (by simp) :
          ((x :: xs).getLast?).isSome)
        rw [List.getLast?_cons_cons, hy]
        simp
    · rw [List.filter_cons_of_neg (by simpa using hk), lookupA_setA_ne _ _ _ _ (by
        intro hh; exact hk hh.symm)]

/-- Iterated `Set.add` keeps the accumulator duplicate-free. -/
theorem nodup_foldl_insertDedup (l : List LC) (acc : List LC) (h : acc.Nodup) :
    (l.foldl insertDedup acc).Nodup := by
  induction l generalizing acc with
  | nil => exact h
  | cons x rest ih =>
    rw [List.foldl_cons]
    refine ih _ ?_
    unfold insertDedup
    by_cases hx : x ∈ acc
    · simpa [hx] using h
    · rw [if_neg hx]
      exact List.Nodup.append h (List.nodup_singleton x) (by
        intro a ha hb
        rw [List.mem_singleton] at hb
        exact hx (hb ▸ ha))

/-- Membership in the iterated `Set.add` accumulator. -/
theorem mem_foldl_insertDedup (l : List LC) (acc : List LC) (x : LC) :
    x ∈ l.foldl insertDedup acc ↔ x ∈ acc ∨ x ∈ l := by
  induction l generalizing acc with
  | nil => simp
  | cons y rest ih =>
    rw [List.foldl_cons, ih]
    unfold insertDedup
    by_cases hy : y ∈ acc
    · constructor
      · rintro (h | h)
        · rw [if_pos hy] at h; exact Or.inl h
        · exact Or.inr (List.mem_cons_of_mem y h)
      · rintro (h | h)
        · exact Or.inl (by rw [if_pos hy]; exact h)
        · rcases List.mem_cons.mp h with rfl | h
          · exact Or.inl (by rw [if_pos hy]; exact hy)
          · exact Or.inr h
    · rw [if_neg hy]
      constructor
      · rintro (h | h)
        · rcases List.mem_append.mp h with h | h
          · exact Or.inl h
          · exact Or.inr (by rw [List.mem_singleton] at h; exact h ▸ List.mem_cons_self y rest)
        · exact Or.inr (List.mem_cons_of_mem y h)
      · rintro (h | h)
        · exact Or.inl (List.mem_append_left _ h)
        · rcases List.mem_cons.mp h with rfl | h
          · exact Or.inl (List.mem_append_right _ (List.mem_singleton_self x))
          · exact Or.inr h

/-- `indexOf` ignores a right extension when the element is on the left. -/
theorem indexOf_append_mem {α : Type} [BEq α] [LawfulBEq α] (a : α) (l1 l2 : List α)
    (h : a ∈ l1) : (l1 ++ l2).indexOf a = l1.indexOf a := by
  induction l1 with
  | nil => simp at h
  | cons d t ih =>
    by_cases hd : (d == a) = true
    · simp [List.indexOf_cons, hd]
    · have ht : a ∈ t := by
        rcases List.mem_cons.mp h with rfl | hh
        · simp at hd
        · exact hh
      simp [List.indexOf_cons, hd, ih ht]

/-- `indexOf` of an element absent from the left part of an append. -/
theorem indexOf_append_not_mem {α : Type} [BEq α] [LawfulBEq α] (a : α) (l1 l2 : List α)
    (h : a ∉ l1) : (l1 ++ l2).indexOf a = l1.length + l2.indexOf a := by
  induction l1 with
  | nil => simp
  | cons d t ih =>
    have hd : (d == a) = false := by
      rw [beq_eq_false_iff_ne]
      intro hh
      exact h (hh ▸ List.mem_cons_self d t)
    have ht : a ∉ t := fun hh => h (List.mem_cons_of_mem d hh)
    simp only [List.cons_append, List.indexOf_cons, hd, cond_false, ih ht, List.length_cons]
    omega

/-- `indexOf` of a member is below the length. -/
theorem indexOf_mem_lt_length {α : Type} [BEq α] [LawfulBEq α] (a : α) (l : List α)
    (h : a ∈ l) : l.indexOf a < l.length := by
  induction l with
  | nil => simp at h
  | cons d t ih =>
    by_cases hd : (d == a) = true
    · simp [List.indexOf_cons, hd]
    · have ht : a ∈ t := by
        rcases List.mem_cons.mp h with rfl | hh
        · simp at hd
        · exact hh
      simp only [List.indexOf_cons, hd, cond_false, List.length_cons]
      exact Nat.succ_lt_succ (ih ht)

/-- The discovered-network set is duplicate-free. -/
theorem nodup_allNetworksOf (chainIds : List (LC × LC)) : (allNetworksOf chainIds).Nodup :=
  nodup_foldl_insertDedup _ _ List.nodup_nil

/-- The discovered-network set holds exactly the mapping's values. -/
theorem mem_allNetworksOf (chainIds : List (LC × LC)) (x : LC) :
    x ∈ allNetworksOf chainIds ↔ x ∈ chainIds.map (fun p => p.2) := by
  unfold allNetworksOf dedupFirstOcc
  rw [mem_foldl_insertDedup]
  simp

/-! ## Theorems: `fetchChainData` -/

/-- C5 counterexample: on a readable body whose extraction/parsing fails
(here the body `"x"`, which has no object literal at all, so `extractObject`
hits its internal `catch`), `fetchChainData` does not return the hardcoded
5-entry fallback — it returns the empty mapping.  This falsifies the claim
that any parse error yields the fallback. -/
theorem fetchChainData_parse_error_counterexample :
    extractObjectCore (str "x") = none
    ∧ (fetchChainData (FetchResult.ok (str "x"))).chainIds = []
    ∧ fetchChainData (FetchResult.ok (str "x")) ≠ fallbackChainData := by
  refine ⟨rfl, rfl, ?_⟩
  decide

/-- C5 (amended): when the metadata fetch itself fails — a non-2xx response
or a network/body-read error — `fetchChainData` returns the hardcoded
fallback, whose chain-ID mapping has exactly the 5 specified entries; it
never raises (the embedding is a total function into `ChainData`). -/
theorem fetchChainData_fetch_failure_fallback (r : FetchResult)
    (h : r = FetchResult.notOk ∨ r = FetchResult.netErr) :
    fetchChainData r = fallbackChainData
    ∧ fallbackChainData.chainIds =
        [(str "1", str "ethereum"), (str "10", str "optimism"), (str "137", str "polygon"),
         (str "42161", str "arbitrum"), (str "8453", str "base")] := by
  rcases h with h | h <;> subst h <;> exact ⟨rfl, rfl⟩

/-- C5 witness: a simulated non-2xx response yields the 5-entry fallback. -/
theorem fetchChainData_fetch_failure_fallback_witness :
    fetchChainData FetchResult.notOk = fallbackChainData
    ∧ fallbackChainData.chainIds =
        [(str "1", str "ethereum"), (str "10", str "optimism"), (str "137", str "polygon"),
         (str "42161", str "arbitrum"), (str "8453", str "base")] :=
  fetchChainData_fetch_failure_fallback FetchResult.notOk (Or.inl rfl)

/-- C6: for every parsed chain-ID mapping, the prioritized network list has
no duplicate keys; every popular-subset key present among the mapping's
values appears in the list, and it appears before every non-popular key of
the list; every discovered key (distinct mapping value) appears in the list;
and the remaining (non-popular) discovered keys follow in their natural
iteration order — the non-popular portion of the list is exactly the
non-popular discovered keys in set-iteration (first-occurrence) order. -/
theorem buildNetworkList_spec (chainIds : List (LC × LC)) :
    (buildNetworkList chainIds).Nodup
    ∧ (∀ p, p ∈ popularNetworks → p ∈ chainIds.map (fun q => q.2) →
        p ∈ buildNetworkList chainIds)
    ∧ (∀ p q, p ∈ popularNetworks → p ∈ chainIds.map (fun r => r.2) →
        q ∈ buildNetworkList chainIds → q ∉ popularNetworks →
        (buildNetworkList chainIds).indexOf p < (buildNetworkList chainIds).indexOf q)
    ∧ (∀ n, n ∈ allNetworksOf chainIds → n ∈ buildNetworkList chainIds)
    ∧ (buildNetworkList chainIds).filter (fun n => decide (n ∉ popularNetworks)) =
        (allNetworksOf chainIds).filter (fun n => decide (n ∉ popularNetworks)) := by
  have hA : ∀ x ∈ popularNetworks.filter (fun n => decide (n ∈ allNetworksOf chainIds)),
      x ∈ popularNetworks := fun x hx => (List.mem_filter.mp hx).1
  have hB : ∀ x ∈ (allNetworksOf chainIds).filter (fun n => decide (n ∉ popularNetworks)),
      x ∉ popularNetworks := fun x hx => of_decide_eq_true (List.mem_filter.mp hx).2
  have hmemA : ∀ p, p ∈ popularNetworks → p ∈ chainIds.map (fun q => q.2) →
      p ∈ popularNetworks.filter (fun n => decide (n ∈ allNetworksOf chainIds)) := by
    intro p hp hv
    exact List.mem_filter.mpr ⟨hp, decide_eq_true ((mem_allNetworksOf chainIds p).mpr hv)⟩
  refine ⟨?_, ?_, ?_, ?_, ?_⟩
  · exact List.Nodup.append
      (List.Nodup.filter _ (by decide))
      (List.Nodup.filter _ (nodup_allNetworksOf chainIds))
      (fun a ha hb => hB a hb (hA a ha))
  · intro p hp hv
    exact List.mem_append_left _ (hmemA p hp hv)
  · intro p q hp hpv hq hqnp
    have hpA := hmemA p hp hpv
    have hqA : q ∉ popularNetworks.filter (fun n => decide (n ∈ allNetworksOf chainIds)) :=
      fun h => hqnp (hA q h)
    unfold buildNetworkList
    rw [indexOf_append_mem p _ _ hpA, indexOf_append_not_mem q _ _ hqA]
    have := indexOf_mem_lt_length p _ hpA
    omega
  · intro n hn
    by_cases hp : n ∈ popularNetworks
    · exact List.mem_append_left _ (List.mem_filter.mpr ⟨hp, decide_eq_true hn⟩)
    · exact List.mem_append_right _ (List.mem_filter.mpr ⟨hn, decide_eq_true hp⟩)
  · unfold buildNetworkList
    rw [List.filter_append,
      List.filter_eq_nil_iff.mpr (by
        intro a ha h
        simp only [decide_eq_true_eq] at h
        exact h (hA a ha)),
      List.filter_eq_self.mpr (fun a ha => decide_eq_true (hB a ha))]
    exact List.nil_append _

/-- C9: the explorer map assigns, to every network key present among the
mapping's values, the source's explorer URL for that key — which is the
specific known URL for each of the ten well-known keys, and the synthesized
`https://(key)scan.com/tx/` for every other key. -/
theorem buildExplorers_spec (chainIds : List (LC × LC)) :
    (∀ nk, nk ∈ chainIds.map (fun p => p.2) →
        lookupA (buildExplorers chainIds) nk = some (explorerFor nk))
    ∧ explorerFor (str "ethereum") = str "https://etherscan.io/tx/"
    ∧ explorerFor (str "binance") = str "https://bscscan.com/tx/"
    ∧ explorerFor (str "polygon") = str "https://polygonscan.com/tx/"
    ∧ explorerFor (str "arbitrum") = str "https://arbiscan.io/tx/"
    ∧ explorerFor (str "optimism") = str "https://optimistic.etherscan.io/tx/"
    ∧ explorerFor (str "base") = str "https://basescan.org/tx/"
    ∧ explorerFor (str "avalanche") = str "https://snowtrace.io/tx/"
    ∧ explorerFor (str "fantom") = str "https://ftmscan.com/tx/"
    ∧ explorerFor (str "gnosis") = str "https://gnosisscan.io/tx/"
    ∧ explorerFor (str "zksync") = str "https://explorer.zksync.io/tx/"
    ∧ (∀ nk, nk ∉ popularNetworks →
        explorerFor nk = str "https://" ++ nk ++ str "scan.com/tx/") := by
  refine ⟨?_, rfl, rfl, rfl, rfl, rfl, rfl, rfl, rfl, rfl, rfl, ?_⟩
  · intro nk hv
    have h := lookupA_foldl_setA (fun p : LC × LC => p.2) (fun p => explorerFor p.2)
      chainIds [] nk
    rw [List.mem_map] at hv
    obtain ⟨p, hp, hpk⟩ := hv
    have hfil : p ∈ chainIds.filter (fun q : LC × LC => decide (q.2 = nk)) :=
      List.mem_filter.mpr ⟨hp, by simp [hpk]⟩
    have hne : chainIds.filter (fun q : LC × LC => decide (q.2 = nk)) ≠ [] :=
      List.ne_nil_of_mem hfil
    obtain ⟨y, hy⟩ := Option.isSome_iff_exists.mp (List.getLast?_isSome.mpr hne)
    have hyk : y.2 = nk :=
      of_decide_eq_true (List.mem_filter.mp (List.mem_of_mem_getLast? hy)).2
    unfold buildExplorers
    rw [h, hy]
    simp [lookupA, hyk]
  · intro nk h
    simp only [popularNetworks, List.mem_cons, List.not_mem_nil, or_false, not_or] at h
    obtain ⟨h1, h2, h3, h4, h5, h6, h7, h8, h9, h10⟩ := h
    simp [explorerFor, h1, h2, h3, h4, h5, h6, h7, h8, h9, h10]

/-! ## Theorems: `fetchRpcData` -/

/-- A key of the record after an assignment is an old key or the assigned
key. -/
theorem mem_keysA_setA {α β : Type} [DecidableEq α] (l : List (α × β)) (k x : α) (v : β)
    (h : x ∈ keysA (setA l k v)) : x ∈ keysA l ∨ x = k := by
  induction l with
  | nil =>
    simp only [setA, keysA, List.map_cons, List.map_nil, List.mem_singleton] at h
    exact Or.inr h
  | cons p rest ih =>
    obtain ⟨k0, v0⟩ := p
    by_cases h0 : k0 = k
    · simp only [setA, if_pos h0, keysA, List.map_cons] at h
      exact Or.inl (by simpa [keysA] using h)
    · simp only [setA, if_neg h0, keysA, List.map_cons, List.mem_cons] at h
      rcases h with rfl | h
      · exact Or.inl (by simp [keysA])
      · rcases ih h with h | h
        · exact Or.inl (List.mem_cons_of_mem _ h)
        · exact Or.inr h

/-- Assignment keeps the record's keys duplicate-free. -/
theorem keysA_setA_nodup {α β : Type} [DecidableEq α] (l : List (α × β)) (k : α) (v : β)
    (h : (keysA l).Nodup) : (keysA (setA l k v)).Nodup := by
  induction l with
  | nil => simp [setA, keysA]
  | cons p rest ih =>
    obtain ⟨k0, v0⟩ := p
    simp only [keysA, List.map_cons, List.nodup_cons] at h
    by_cases h0 : k0 = k
    · simp only [setA, if_pos h0, keysA, List.map_cons, List.nodup_cons]
      exact ⟨by simpa [keysA] using h.1, by simpa [keysA] using h.2⟩
    · simp only [setA, if_neg h0, keysA, List.map_cons, List.nodup_cons]
      refine ⟨?_, by simpa [keysA] using ih (by simpa [keysA] using h.2)⟩
      intro hm
      rcases mem_keysA_setA rest k k0 v (by simpa [keysA] using hm) with hm2 | hm2
      · exact h.1 (by simpa [keysA] using hm2)
      · exact h0 hm2

/-- With duplicate-free keys, filtering a record on one present key keeps
exactly that entry. -/
theorem filter_keyEq_of_nodup {α β : Type} [DecidableEq α] (l : List (α × β)) (k : α) (v : β)
    (hn : (keysA l).Nodup) (hm : (k, v) ∈ l) :
    l.filter (fun p => decide (p.1 = k)) = [(k, v)] := by
  induction l with
  | nil => simp at hm
  | cons p rest ih =>
    simp only [keysA, List.map_cons, List.nodup_cons] at hn
    rcases List.mem_cons.mp hm with heq | hm2
    · subst heq
      rw [List.filter_cons_of_pos (by simp)]
      have hnil : rest.filter (fun p => decide (p.1 = k)) = [] := by
        rw [List.filter_eq_nil_iff]
        intro q hq
        simp only [decide_eq_true_eq]
        intro hqk
        exact hn.1 (hqk ▸ List.mem_map.mpr ⟨q, hq, rfl⟩)
      rw [hnil]
    · have hk0 : ¬(p.1 = k) := by
        intro hh
        exact hn.1 (hh ▸ List.mem_map.mpr ⟨(k, v), hm2, rfl⟩)
      rw [List.filter_cons_of_neg (by simpa using hk0)]
      exact ih (by simpa [keysA] using hn.2) hm2

/-- With duplicate-free keys, membership determines the read value. -/
theorem lookupA_of_mem_nodup {α β : Type} [DecidableEq α] (l : List (α × β)) (k : α) (v : β)
    (hn : (keysA l).Nodup) (hm : (k, v) ∈ l) : lookupA l k = some v := by
  induction l with
  | nil => simp at hm
  | cons p rest ih =>
    obtain ⟨k0, v0⟩ := p
    simp only [keysA, List.map_cons, List.nodup_cons] at hn
    rcases List.mem_cons.mp hm with heq | hm2
    · obtain ⟨rfl, rfl⟩ := Prod.mk.injEq k0 v0 k v ▸ heq.symm
      simp [lookupA]
    · have hk0 : k0 ≠ k := by
        intro hh
        exact hn.1 (hh ▸ List.mem_map.mpr ⟨(k, v), hm2, rfl⟩)
      simp [lookupA, hk0, ih (by simpa [keysA] using hn.2) hm2]

/-- The `networkKeyToChainId` record has duplicate-free keys. -/
theorem nodup_keysA_networkKeyToChainId (chainIds : List (Nat × LC)) :
    (keysA (networkKeyToChainId chainIds)).Nodup := by
  have hgen : ∀ (l : List (Nat × LC)) (acc : List (LC × Nat)), (keysA acc).Nodup →
      (keysA (l.foldl (fun acc p => setA acc p.2 p.1) acc)).Nodup := by
    intro l
    induction l with
    | nil => exact fun acc h => h
    | cons p rest ih => exact fun acc h => ih _ (keysA_setA_nodup _ _ _ h)
  exact hgen chainIds [] (by simp [keysA])

/-- The `networksMapOf` fold in terms of `chainRpcUrls` and `infoFor`. -/
theorem networksMapOf_eq_guardFold (chainIds : List (Nat × LC)) (explorers : List (LC × LC))
    (text : LC) :
    networksMapOf chainIds explorers text =
      (networkKeyToChainId chainIds).foldl (fun a p =>
        if chainRpcUrls p.2 text = [] then a
        else setA a p.1 (infoFor explorers text p)) [] := by
  unfold networksMapOf
  refine List.foldl_ext _ _ _ ?_
  intro acc p _
  cases hm : matchChainRpcs p.2 text with
  | none => simp [chainRpcUrls, hm]
  | some s =>
    by_cases he : extractUrlsFromCapture s = []
    · simp [chainRpcUrls, hm, he]
    · simp [chainRpcUrls, hm, he, infoFor, chainNameFor]

/-- Reading a key from the guarded fold: the last entry with that key whose
URL extraction succeeded, else the initial record. -/
theorem lookupA_networksMapFold (explorers : List (LC × LC)) (text : LC)
    (l : List (LC × Nat)) (acc : List (LC × NetworkInfo)) (nk : LC) :
    lookupA (l.foldl (fun a p =>
        if chainRpcUrls p.2 text = [] then a
        else setA a p.1 (infoFor explorers text p)) acc) nk
      = (((l.filter (fun p =>
            !(decide (chainRpcUrls p.2 text = [])) && decide (p.1 = nk))).getLast?.map
          (infoFor explorers text)).or (lookupA acc nk)) := by
  induction l generalizing acc with
  | nil => simp
  | cons p rest ih =>
    rw [List.foldl_cons, ih]
    by_cases hg : chainRpcUrls p.2 text = []
    · rw [if_pos hg, List.filter_cons_of_neg (by simp [hg])]
    · rw [if_neg hg]
      by_cases hk : p.1 = nk
      · rw [List.filter_cons_of_pos (by simp [hg, hk])]
        cases hfr : rest.filter (fun q =>
            !(decide (chainRpcUrls q.2 text = [])) && decide (q.1 = nk)) with
        | nil =>
          rw [← hk]
          simp [lookupA_setA_self]
        | cons x xs =>
          obtain ⟨y, hy⟩ := Option.isSome_iff_exists.mp (List.getLast?_isSome.mpr (by simp) :
            ((x :: xs).getLast?).isSome)
          rw [List.getLast?_cons_cons, hy]
          simp
      · rw [List.filter_cons_of_neg (by simp [hk]),
          lookupA_setA_ne _ _ _ _ (fun hh => hk hh.symm)]

/-- C7: for a chain ID known from the (deduplicated) metadata mapping, the
resulting `NetworksMap` has an entry under its network key iff at least one
RPC URL was recovered for that chain ID from the text — in particular a
chain ID with no matching entry in the text contributes nothing — and no
entry of the map has an empty `rpcs` list. -/
theorem networksMapOf_entry_iff (chainIds : List (Nat × LC)) (explorers : List (LC × LC))
    (text : LC) (nk : LC) (cid : Nat)
    (h : (nk, cid) ∈ networkKeyToChainId chainIds) :
    ((lookupA (networksMapOf chainIds explorers text) nk).isSome
        ↔ chainRpcUrls cid text ≠ [])
    ∧ (∀ nk2 info, lookupA (networksMapOf chainIds explorers text) nk2 = some info →
        info.rpcs ≠ []) := by
  have hn := nodup_keysA_networkKeyToChainId chainIds
  have hfil := filter_keyEq_of_nodup _ nk cid hn h
  constructor
  · rw [networksMapOf_eq_guardFold, lookupA_networksMapFold]
    have hcomp : (networkKeyToChainId chainIds).filter (fun p =>
          !(decide (chainRpcUrls p.2 text = [])) && decide (p.1 = nk)) =
        ((networkKeyToChainId chainIds).filter (fun p => decide (p.1 = nk))).filter
          (fun p => !(decide (chainRpcUrls p.2 text = []))) := by
      rw [List.filter_filter]
    rw [hcomp, hfil]
    by_cases hu : chainRpcUrls cid text = []
    · simp [hu, lookupA]
    · simp [hu]
  · intro nk2 info hinfo
    rw [networksMapOf_eq_guardFold, lookupA_networksMapFold] at hinfo
    cases hgl : ((networkKeyToChainId chainIds).filter (fun p =>
        !(decide (chainRpcUrls p.2 text = [])) && decide (p.1 = nk2))).getLast? with
    | none => rw [hgl] at hinfo; simp [lookupA] at hinfo
    | some q =>
      rw [hgl] at hinfo
      simp only [Option.map_some'] at hinfo
      have hq := List.mem_of_mem_getLast? hgl
      have hqg : ¬(chainRpcUrls q.2 text = []) := by
        have h2 := (List.mem_filter.mp hq).2
        simp only [Bool.and_eq_true, Bool.not_eq_true', decide_eq_false_iff_not] at h2
        exact h2.1
      have hi : info = infoFor explorers text q := (Option.some.inj hinfo).symm
      rw [hi]
      exact hqg

/-- C7 witness: a one-entry mapping against a text holding one matching
rpcs array. -/
theorem networksMapOf_entry_iff_witness :
    ((str "ethereum", 1) ∈ networkKeyToChainId [(1, str "ethereum")])
    ∧ (((lookupA (networksMapOf [(1, str "ethereum")] []
          (str "1: \x7b rpcs: ['https://a'] \x7d")) (str "ethereum")).isSome
        ↔ chainRpcUrls 1 (str "1: \x7b rpcs: ['https://a'] \x7d") ≠ [])
      ∧ (∀ nk2 info, lookupA (networksMapOf [(1, str "ethereum")] []
          (str "1: \x7b rpcs: ['https://a'] \x7d")) nk2 = some info → info.rpcs ≠ [])) :=
  ⟨by decide, networksMapOf_entry_iff [(1, str "ethereum")] []
    (str "1: \x7b rpcs: ['https://a'] \x7d") (str "ethereum") 1 (by decide)⟩

/-- C10: the `NetworksMap` has at most one entry per network key, and the
`chainId` recorded for a key is the chain ID of the last mapping entry (in
iteration order) carrying that key — earlier chain IDs for the same key are
discarded. -/
theorem networksMapOf_unique_last_chainId (chainIds : List (Nat × LC))
    (explorers : List (LC × LC)) (text : LC) :
    (keysA (networksMapOf chainIds explorers text)).Nodup
    ∧ (∀ nk info, lookupA (networksMapOf chainIds explorers text) nk = some info →
        some info.chainId =
          ((chainIds.filter (fun p => decide (p.2 = nk))).getLast?.map (fun p => p.1))) := by
  constructor
  · rw [networksMapOf_eq_guardFold]
    have hgen : ∀ (l : List (LC × Nat)) (acc : List (LC × NetworkInfo)), (keysA acc).Nodup →
        (keysA (l.foldl (fun a p =>
          if chainRpcUrls p.2 text = [] then a
          else setA a p.1 (infoFor explorers text p)) acc)).Nodup := by
      intro l
      induction l with
      | nil => exact fun acc hacc => hacc
      | cons p rest ih =>
        intro acc hacc
        rw [List.foldl_cons]
        by_cases hg : chainRpcUrls p.2 text = []
        · rw [if_pos hg]; exact ih _ hacc
        · rw [if_neg hg]; exact ih _ (keysA_setA_nodup _ _ _ hacc)
    exact hgen _ [] (by simp [keysA])
  · intro nk info hinfo
    rw [networksMapOf_eq_guardFold, lookupA_networksMapFold] at hinfo
    cases hgl : ((networkKeyToChainId chainIds).filter (fun p =>
        !(decide (chainRpcUrls p.2 text = [])) && decide (p.1 = nk))).getLast? with
    | none => rw [hgl] at hinfo; simp [lookupA] at hinfo
    | some q =>
      rw [hgl] at hinfo
      simp only [Option.map_some'] at hinfo
      have hq := List.mem_of_mem_getLast? hgl
      have hmem := (List.mem_filter.mp hq).1
      have hkey : q.1 = nk := by
        have h2 := (List.mem_filter.mp hq).2
        simp only [Bool.and_eq_true, decide_eq_true_eq] at h2
        exact h2.2
      have hi : info = infoFor explorers text q := (Option.some.inj hinfo).symm
      have hlast := lookupA_foldl_setA (fun p : Nat × LC => p.2) (fun p : Nat × LC => p.1)
        chainIds [] nk
      have hn2c : lookupA (networkKeyToChainId chainIds) nk = some q.2 := by
        have := lookupA_of_mem_nodup (networkKeyToChainId chainIds) q.1 q.2
          (nodup_keysA_networkKeyToChainId chainIds) (by simpa using hmem)
        rw [hkey] at this
        exact this
      have hmain : lookupA (networkKeyToChainId chainIds) nk =
          ((chainIds.filter (fun p => decide (p.2 = nk))).getLast?.map (fun p => p.1)) := by
        unfold networkKeyToChainId
        rw [hlast]
        simp [lookupA]
      rw [hi]
      simp only [infoFor]
      rw [← hmain, hn2c]

/-! ## Theorems: text-scanning helpers -/

/-- `takeWhile` passes over a block whose characters all satisfy the
predicate. -/
theorem takeWhile_append_all {p : Char → Bool} (a b : LC) (h : ∀ c ∈ a, p c = true) :
    (a ++ b).takeWhile p = a ++ b.takeWhile p := by
  induction a with
  | nil => simp
  | cons c a' ih =>
    rw [List.cons_append, List.takeWhile_cons_of_pos (h c (List.mem_cons_self c a')),
      ih (fun d hd => h d (List.mem_cons_of_mem c hd)), List.cons_append]

/-- `dropWhile` passes over a block whose characters all satisfy the
predicate. -/
theorem dropWhile_append_all {p : Char → Bool} (a b : LC) (h : ∀ c ∈ a, p c = true) :
    (a ++ b).dropWhile p = b.dropWhile p := by
  induction a with
  | nil => simp
  | cons c a' ih =>
    rw [List.cons_append, List.dropWhile_cons_of_pos (h c (List.mem_cons_self c a')),
      ih (fun d hd => h d (List.mem_cons_of_mem c hd))]

/-- `dropWhile` never lengthens a list. -/
theorem dropWhile_length_le {p : Char → Bool} (l : LC) :
    (l.dropWhile p).length ≤ l.length := by
  induction l with
  | nil => simp
  | cons c l' ih =>
    by_cases hc : p c = true
    · rw [List.dropWhile_cons_of_pos hc]
      exact Nat.le_succ_of_le ih
    · rw [List.dropWhile_cons_of_neg (by simpa using hc)]

/-- The head after dropping `k` elements is the `k`-th element. -/
theorem head?_drop_eq (l : LC) (k : Nat) : (l.drop k).head? = l.get? k := by
  induction l generalizing k with
  | nil => cases k <;> simp
  | cons c l' ih =>
    cases k with
    | zero => simp
    | succ k' =>
      rw [List.drop_succ_cons, ih k']
      rfl

/-- Matching a literal against itself followed by anything succeeds. -/
theorem stripLit_self_append (p l : LC) : stripLit p (p ++ l) = some l := by
  induction p with
  | nil => rfl
  | cons c p' ih => simp [stripLit, ih]

/-- A literal match extends over a right extension of the text. -/
theorem stripLit_some_append (pat s y r : LC) (h : stripLit pat s = some r) :
    stripLit pat (s ++ y) = some (r ++ y) := by
  induction pat generalizing s with
  | nil =>
    simp only [stripLit] at h
    simp [stripLit, ← Option.some.inj h]
  | cons p0 ps ih =>
    cases s with
    | nil => simp [stripLit] at h
    | cons c s' =>
      simp only [stripLit] at h ⊢
      by_cases hc : c = p0
      · rw [if_pos hc] at h ⊢
        exact ih s' h
      · rw [if_neg hc] at h
        exact absurd h (by simp)

/-- If a literal fails on `a` alone but matches `a ++ y`, then `a` is a
proper prefix of the literal and the remaining part of the literal matches
`y`. -/
theorem stripLit_append_split (pat : LC) (a y : LC) (hnone : stripLit pat a = none)
    (hsome : (stripLit pat (a ++ y)).isSome = true) :
    a.length < pat.length ∧ (stripLit (pat.drop a.length) y).isSome = true := by
  induction pat generalizing a with
  | nil => simp [stripLit] at hnone
  | cons p0 ps ih =>
    cases a with
    | nil =>
      refine ⟨by simp, ?_⟩
      simpa using hsome
    | cons c a' =>
      rw [List.cons_append] at hsome
      simp only [stripLit] at hnone hsome
      by_cases hc : c = p0
      · rw [if_pos hc] at hnone hsome
        obtain ⟨h1, h2⟩ := ih a' hnone hsome
        exact ⟨by simpa using Nat.succ_lt_succ h1, by simpa using h2⟩
      · rw [if_neg hc] at hsome
        simp at hsome

/-- A nonempty literal that matches determines the head of the text. -/
theorem stripLit_isSome_head (q0 : Char) (qs y : LC)
    (h : (stripLit (q0 :: qs) y).isSome = true) : y.head? = some q0 := by
  cases y with
  | nil => simp [stripLit] at h
  | cons c rest =>
    simp only [stripLit] at h
    by_cases hc : c = q0
    · simp [hc]
    · rw [if_neg hc] at h
      simp at h

/-- `includes` of the empty pattern is always true. -/
theorem containsLit_nil_pat (l : LC) : containsLit [] l = true := by
  cases l <;> simp [containsLit, stripLit]

/-- Unfolding `includes` one character. -/
theorem containsLit_cons (pat : LC) (c : Char) (l : LC) :
    containsLit pat (c :: l) = ((stripLit pat (c :: l)).isSome || containsLit pat l) := rfl

/-- A pattern that cannot start at the head character steps over it. -/
theorem containsLit_cons_ne (pat : LC) (c : Char) (l : LC) (h : pat.head? ≠ some c) :
    containsLit pat (c :: l) = containsLit pat l := by
  cases pat with
  | nil => rw [containsLit_nil_pat, containsLit_nil_pat]
  | cons p0 ps =>
    rw [containsLit_cons]
    have hc : ¬(c = p0) := fun hh => h (by simp [hh])
    simp [stripLit, hc]

/-- If the text does not contain the pattern, the pattern starts at no
suffix of the text. -/
theorem containsLit_suffix_false (pat l : LC) (h : containsLit pat l = false)
    (s : LC) (hs : s <:+ l) : (stripLit pat s).isSome = false := by
  induction l with
  | nil =>
    rw [List.suffix_nil] at hs
    subst hs
    cases pat with
    | nil => simpa [containsLit] using h
    | cons p0 ps => simp [stripLit]
  | cons c l' ih =>
    rw [containsLit_cons, Bool.or_eq_false_iff] at h
    rcases List.suffix_cons_iff.mp hs with rfl | hs'
    · exact h.1
    · exact ih h.2 hs'

/-- Gluing two pattern-free texts stays pattern-free, provided no
cross-boundary occurrence is possible: the second text's head character does
not occur in the pattern past position 0. -/
theorem containsLit_append_false (pat x y : LC) (c : Char)
    (hx : containsLit pat x = false) (hy : containsLit pat y = false)
    (hhead : y.head? = some c)
    (hcross : ∀ k, k < pat.length → 0 < k → pat.get? k ≠ some c) :
    containsLit pat (x ++ y) = false := by
  induction x with
  | nil => simpa using hy
  | cons c0 x' ih =>
    rw [containsLit_cons, Bool.or_eq_false_iff] at hx
    rw [List.cons_append, containsLit_cons, Bool.or_eq_false_iff]
    refine ⟨?_, ih hx.2⟩
    by_contra hss
    simp only [Bool.not_eq_false] at hss
    have hss' : (stripLit pat ((c0 :: x') ++ y)).isSome = true := by
      rw [List.cons_append]
      exact hss
    have hnone : stripLit pat (c0 :: x') = none := by
      cases hsl : stripLit pat (c0 :: x') with
      | none => rfl
      | some r => rw [hsl] at hx; simp at hx
    obtain ⟨hlt, hdrop⟩ := stripLit_append_split pat (c0 :: x') y hnone hss'
    cases hd : pat.drop (c0 :: x').length with
    | nil =>
      have := congrArg List.length hd
      simp only [List.length_drop, List.length_nil] at this
      omega
    | cons q0 qs =>
      rw [hd] at hdrop
      have hyh := stripLit_isSome_head q0 qs y hdrop
      have hget : pat.get? (c0 :: x').length = some q0 := by
        rw [← head?_drop_eq, hd]
        rfl
      have hq0c : q0 = c := by
        rw [hyh] at hhead
        exact Option.some.inj hhead
      simp only [List.length_cons] at hget hlt
      exact hcross _ hlt (Nat.succ_pos _) (by rw [hget, hq0c])

/-- If an extended text does not contain the pattern, neither does the
original text. -/
theorem containsLit_prefix_false (pat x y : LC) (h : containsLit pat (x ++ y) = false) :
    containsLit pat x = false := by
  induction x with
  | nil =>
    cases pat with
    | nil =>
      rw [containsLit_nil_pat (([] : LC) ++ y)] at h
      exact absurd h (by simp)
    | cons p0 ps => simp [containsLit, stripLit]
  | cons c x' ih =>
    rw [List.cons_append, containsLit_cons, Bool.or_eq_false_iff] at h
    rw [containsLit_cons, Bool.or_eq_false_iff]
    refine ⟨?_, ih h.2⟩
    cases hsl : stripLit pat (c :: x') with
    | none => rfl
    | some r =>
      have := stripLit_some_append pat (c :: x') y r hsl
      rw [List.cons_append] at this
      rw [this] at h
      exact absurd h.1 (by simp)

/-- `tryRpcsAt` fails wherever the `rpcs:` literal does not match. -/
theorem tryRpcsAt_none_of_no_lit (s : LC)
    (h : (stripLit (str "rpcs:") s).isSome = false) : tryRpcsAt s = none := by
  unfold tryRpcsAt
  cases hsl : stripLit (str "rpcs:") s with
  | none => rfl
  | some r => rw [hsl] at h; simp at h

/-- A window search over text where the tail matcher fails at every suffix
finds nothing. -/
theorem windowSearch_none (tryAt : LC → Option LC) (l : LC)
    (h : ∀ s, s <:+ l → tryAt s = none) : windowSearch tryAt l = none := by
  induction l with
  | nil => simpa [windowSearch] using h [] (List.suffix_refl [])
  | cons c rest ih =>
    have hrest := ih (fun s hs => h s (hs.trans (List.suffix_cons c rest)))
    have hhere := h (c :: rest) (List.suffix_refl _)
    unfold windowSearch
    by_cases hc : c = '\x7d'
    · subst hc
      simp [hhere]
    · simp [hc, hrest, hhere]

/-- A window search finds the unique position where the tail matcher
succeeds, when the preceding characters are consumable and no later suffix
matches. -/
theorem windowSearch_found (tryAt : LC → Option LC) (pre : LC) (c0 : Char) (tl cap : LC)
    (hpre : ∀ c ∈ pre, c ≠ '\x7d')
    (hc0 : c0 ≠ '\x7d')
    (hsucc : tryAt (c0 :: tl) = some cap)
    (hfail : ∀ s, s <:+ tl → tryAt s = none) :
    windowSearch tryAt (pre ++ c0 :: tl) = some cap := by
  induction pre with
  | nil =>
    have htl := windowSearch_none tryAt tl hfail
    rw [List.nil_append]
    unfold windowSearch
    simp [hc0, htl, hsucc]
  | cons c pre' ih =>
    have hc := hpre c (List.mem_cons_self c pre')
    have hih := ih (fun d hd => hpre d (List.mem_cons_of_mem c hd))
    rw [List.cons_append]
    unfold windowSearch
    simp [hc, hih]

/-! ## Theorems: URL extraction from a rendered chain entry -/

/-- An ordinary URL character is none of the delimiters the scanners key
on. -/
theorem urlChar_not_delim (d : Char) (h : urlChar d = true) :
    (!(d == '\'')) = true ∧ (!(d == '"')) = true ∧ (!(d == ']')) = true ∧ d ≠ '\x7d' := by
  have hne : ∀ c : Char, urlChar c = false → d ≠ c := by
    intro c hc hdc
    rw [hdc, hc] at h
    exact absurd h (by simp)
  refine ⟨?_, ?_, ?_, hne '\x7d' (by decide)⟩
  · simpa using hne '\'' (by decide)
  · simpa using hne '"' (by decide)
  · simpa using hne ']' (by decide)

/-- Unpacking `goodUrl`. -/
theorem goodUrl_spec (u : LC) (h : goodUrl u = true) :
    u ≠ [] ∧ (∀ c ∈ u, urlChar c = true)
    ∧ containsLit (str "url:") u = false ∧ containsLit (str "rpcs:") u = false := by
  unfold goodUrl at h
  simp only [Bool.and_eq_true, Bool.not_eq_true'] at h
  obtain ⟨⟨⟨h1, h2⟩, h3⟩, h4⟩ := h
  refine ⟨?_, fun c hc => List.all_eq_true.mp h2 c hc, h3, h4⟩
  intro he
  subst he
  simp at h1

/-- The fuel argument of `scanSinglesAux` is irrelevant above the input
length. -/
theorem scanSinglesAux_fuel : ∀ (f1 f2 : Nat) (l : LC), l.length ≤ f1 → l.length ≤ f2 →
    scanSinglesAux f1 l = scanSinglesAux f2 l := by
  intro f1
  induction f1 with
  | zero =>
    intro f2 l h1 h2
    have hl : l = [] := List.eq_nil_of_length_eq_zero (Nat.le_zero.mp h1)
    subst hl
    cases f2 <;> rfl
  | succ f1' ih =>
    intro f2 l h1 h2
    cases l with
    | nil => cases f2 <;> rfl
    | cons c rest =>
      cases f2 with
      | zero => simp at h2
      | succ f2' =>
        simp only [List.length_cons, Nat.succ_le_succ_iff] at h1 h2
        simp only [scanSinglesAux]
        by_cases hcond : c = '\''
            ∧ (rest.dropWhile (fun d => !(d == '\''))).head? = some '\''
            ∧ ¬(rest.takeWhile (fun d => !(d == '\''))).isEmpty
        · rw [if_pos hcond, if_pos hcond]
          have hdl : ((rest.dropWhile (fun d => !(d == '\''))).tail).length ≤ rest.length := by
            have h3 := dropWhile_length_le (p := fun d => !(d == '\'')) rest
            have h4 := List.length_tail (rest.dropWhile (fun d => !(d == '\'')))
            omega
          rw [ih f2' _ (by omega) (by omega)]
        · rw [if_neg hcond, if_neg hcond]
          exact ih f2' rest h1 h2

/-- A head that is not a single quote is skipped by the single-quote
scanner. -/
theorem scanSingles_cons_other (c : Char) (rest : LC) (hc : ¬(c = '\'')) :
    scanSingles (c :: rest) = scanSingles rest := by
  unfold scanSingles
  simp only [List.length_cons, scanSinglesAux]
  rw [if_neg (fun hcon => hc hcon.1)]

/-- A single quote followed by a nonempty quote-free run and a closing quote
emits the run and resumes after the closing quote. -/
theorem scanSingles_quote_emit (rest r2' : LC)
    (hdw : rest.dropWhile (fun d => !(d == '\'')) = '\'' :: r2')
    (hne : ¬(rest.takeWhile (fun d => !(d == '\''))).isEmpty) :
    scanSingles ('\'' :: rest)
      = rest.takeWhile (fun d => !(d == '\'')) :: scanSingles r2' := by
  unfold scanSingles
  simp only [List.length_cons, scanSinglesAux]
  rw [if_pos ⟨by simp, by rw [hdw]; rfl, hne⟩, hdw]
  have hlen : r2'.length ≤ rest.length := by
    have h3 := dropWhile_length_le (p := fun d => !(d == '\'')) rest
    rw [hdw] at h3
    simp only [List.length_cons] at h3
    omega
  rw [List.tail_cons]
  rw [scanSinglesAux_fuel rest.length r2'.length r2' hlen (Nat.le_refl _)]

/-- The double-quote scanner finds nothing in double-quote-free text. -/
theorem scanDoublesAux_nil_of_no_quote (l : LC) : ∀ (fuel : Nat),
    (∀ c ∈ l, (c == '"') = false) → scanDoublesAux fuel l = [] := by
  induction l with
  | nil => intro fuel _; cases fuel <;> rfl
  | cons c rest ih =>
    intro fuel h
    cases fuel with
    | zero => rfl
    | succ f =>
      have hc : ¬(c = '"') := by
        have := h c (List.mem_cons_self c rest)
        simpa using this
      simp only [scanDoublesAux]
      rw [if_neg (fun hcon => hc hcon.1)]
      exact ih f (fun d hd => h d (List.mem_cons_of_mem c hd))

/-- The `url:`-field scanner finds nothing in text not containing `url:`. -/
theorem scanUrlFieldsAux_nil_of_no_lit (l : LC) : ∀ (fuel : Nat),
    containsLit (str "url:") l = false → scanUrlFieldsAux fuel l = [] := by
  induction l with
  | nil => intro fuel _; cases fuel <;> rfl
  | cons c rest ih =>
    intro fuel h
    rw [containsLit_cons, Bool.or_eq_false_iff] at h
    cases fuel with
    | zero => rfl
    | succ f =>
      have htry : tryUrlAt (c :: rest) = none := by
        unfold tryUrlAt
        cases hsl : stripLit (str "url:") (c :: rest) with
        | none => rfl
        | some r =>
          rw [hsl] at h
          simp at h
      simp only [scanUrlFieldsAux, htry]
      exact ih f h.2

/-- The rendered array content is nonempty when there is a URL. -/
theorem joinUrls_ne_nil (urls : List LC) (h : urls ≠ []) : joinUrls urls ≠ [] := by
  cases urls with
  | nil => exact absurd rfl h
  | cons u rest => cases rest <;> simp [joinUrls]

/-- Every character of the rendered array content is a quote, comma, space,
or URL character. -/
theorem joinUrls_chars (urls : List LC) (h : ∀ u ∈ urls, goodUrl u = true) :
    ∀ c ∈ joinUrls urls, c = '\'' ∨ c = ',' ∨ c = ' ' ∨ urlChar c = true := by
  induction urls with
  | nil => simp [joinUrls]
  | cons u rest ih =>
    have hall : ∀ c ∈ u, urlChar c = true :=
      (goodUrl_spec u (h u (List.mem_cons_self u rest))).2.1
    cases rest with
    | nil =>
      intro c hc
      rw [show joinUrls [u] = '\'' :: (u ++ ['\'']) from rfl] at hc
      rcases List.mem_cons.mp hc with rfl | hc2
      · exact Or.inl rfl
      · rcases List.mem_append.mp hc2 with hc3 | hc3
        · exact Or.inr (Or.inr (Or.inr (hall c hc3)))
        · rcases List.mem_singleton.mp hc3 with rfl
          exact Or.inl rfl
    | cons v rest' =>
      intro c hc
      rw [show joinUrls (u :: v :: rest')
        = '\'' :: (u ++ '\'' :: ',' :: ' ' :: joinUrls (v :: rest')) from rfl] at hc
      rcases List.mem_cons.mp hc with rfl | hc2
      · exact Or.inl rfl
      · rcases List.mem_append.mp hc2 with hc3 | hc3
        · exact Or.inr (Or.inr (Or.inr (hall c hc3)))
        · rcases List.mem_cons.mp hc3 with rfl | hc4
          · exact Or.inl rfl
          · rcases List.mem_cons.mp hc4 with rfl | hc5
            · exact Or.inr (Or.inl rfl)
            · rcases List.mem_cons.mp hc5 with rfl | hc6
              · exact Or.inr (Or.inr (Or.inl rfl))
              · exact ih (fun w hw => h w (List.mem_cons_of_mem u hw)) c hc6

/-- The rendered array content contains no `]`, no `\x7d`, and no double
quote. -/
theorem joinUrls_no_delim (urls : List LC) (hu : ∀ u ∈ urls, goodUrl u = true) :
    ∀ c ∈ joinUrls urls, (!(c == ']')) = true ∧ c ≠ '\x7d' ∧ (c == '"') = false := by
  intro c hc
  rcases joinUrls_chars urls hu c hc with rfl | rfl | rfl | hurl
  · exact ⟨by decide, by decide, by decide⟩
  · exact ⟨by decide, by decide, by decide⟩
  · exact ⟨by decide, by decide, by decide⟩
  · obtain ⟨_, h2, h3, h4⟩ := urlChar_not_delim c hurl
    exact ⟨h3, h4, by simpa using h2⟩

/-- The single-quote scanner recovers exactly the rendered URLs, in order. -/
theorem scanSingles_joinUrls (urls : List LC) (h : ∀ u ∈ urls, goodUrl u = true) :
    scanSingles (joinUrls urls) = urls := by
  induction urls with
  | nil => rfl
  | cons u rest ih =>
    obtain ⟨hne, hchars, _, _⟩ := goodUrl_spec u (h u (List.mem_cons_self u rest))
    have hpred : ∀ c ∈ u, (!(c == '\'')) = true :=
      fun c hc => (urlChar_not_delim c (hchars c hc)).1
    have hnemp : ¬(u.isEmpty) := by
      intro he
      exact hne (List.isEmpty_iff.mp (by simpa using he))
    cases rest with
    | nil =>
      show scanSingles ('\'' :: (u ++ ['\''])) = [u]
      have htw : (u ++ ['\'']).takeWhile (fun d => !(d == '\'')) = u := by
        rw [takeWhile_append_all u ['\''] hpred,
          show (['\''] : LC).takeWhile (fun d => !(d == '\'')) = [] from rfl]
        exact List.append_nil u
      have hdw : (u ++ ['\'']).dropWhile (fun d => !(d == '\'')) = '\'' :: [] := by
        rw [dropWhile_append_all u ['\''] hpred]
        rfl
      rw [scanSingles_quote_emit (u ++ ['\'']) [] hdw (by rw [htw]; simpa using hnemp), htw]
      rfl
    | cons v rest' =>
      show scanSingles ('\'' :: (u ++ '\'' :: ',' :: ' ' :: joinUrls (v :: rest')))
        = u :: v :: rest'
      have htw : (u ++ '\'' :: ',' :: ' ' :: joinUrls (v :: rest')).takeWhile
          (fun d => !(d == '\'')) = u := by
        rw [takeWhile_append_all u _ hpred,
          show ('\'' :: ',' :: ' ' :: joinUrls (v :: rest')).takeWhile
            (fun d => !(d == '\'')) = [] from rfl]
        exact List.append_nil u
      have hdw : (u ++ '\'' :: ',' :: ' ' :: joinUrls (v :: rest')).dropWhile
          (fun d => !(d == '\'')) = '\'' :: (',' :: ' ' :: joinUrls (v :: rest')) := by
        rw [dropWhile_append_all u _ hpred]
        rfl
      rw [scanSingles_quote_emit _ _ hdw (by rw [htw]; simpa using hnemp), htw]
      rw [scanSingles_cons_other ',' _ (by decide), scanSingles_cons_other ' ' _ (by decide)]
      rw [ih (fun w hw => h w (List.mem_cons_of_mem u hw))]

/-- A pattern starting with none of quote/comma/space, and not continuable
from a quote or from the tail's head character, occurs in the rendered array
content followed by a tail only if it occurs in a URL or in the tail. -/
theorem containsLit_join_append (pat : LC) (urls : List LC) (tail : LC)
    (hq : pat.head? ≠ some '\'') (hcm : pat.head? ≠ some ',') (hsp : pat.head? ≠ some ' ')
    (htail : containsLit pat tail = false)
    (hcrossq : ∀ k, k < pat.length → 0 < k → pat.get? k ≠ some '\'')
    (hu : ∀ u ∈ urls, containsLit pat u = false) :
    containsLit pat (joinUrls urls ++ tail) = false := by
  induction urls with
  | nil => simpa [joinUrls] using htail
  | cons u rest ih =>
    cases rest with
    | nil =>
      rw [show joinUrls [u] ++ tail = '\'' :: (u ++ ('\'' :: tail)) by simp [joinUrls]]
      rw [containsLit_cons_ne pat '\'' _ hq]
      refine containsLit_append_false pat u ('\'' :: tail) '\''
        (hu u (List.mem_cons_self u _)) ?_ rfl hcrossq
      rw [containsLit_cons_ne pat '\'' _ hq]
      exact htail
    | cons v rest' =>
      rw [show joinUrls (u :: v :: rest') ++ tail
        = '\'' :: (u ++ ('\'' :: ',' :: ' ' :: (joinUrls (v :: rest') ++ tail)))
        by simp [joinUrls]]
      rw [containsLit_cons_ne pat '\'' _ hq]
      refine containsLit_append_false pat u _ '\''
        (hu u (List.mem_cons_self u _)) ?_ rfl hcrossq
      rw [containsLit_cons_ne pat '\'' _ hq, containsLit_cons_ne pat ',' _ hcm,
        containsLit_cons_ne pat ' ' _ hsp]
      exact ih (fun w hw => hu w (List.mem_cons_of_mem u hw))

/-- The rendered array content followed by the closing of the entry does not
contain `rpcs:` (so the greedy window backtracks to the real one). -/
theorem containsLit_rpcs_join_tail (urls : List LC) (hu : ∀ u ∈ urls, goodUrl u = true) :
    containsLit (str "rpcs:") (joinUrls urls ++ str "],\n\x7d") = false :=
  containsLit_join_append (str "rpcs:") urls (str "],\n\x7d")
    (by decide) (by decide) (by decide) (by decide) (by decide)
    (fun u huu => (goodUrl_spec u (hu u huu)).2.2.2)

/-- The rendered array content does not contain `url:`. -/
theorem containsLit_url_join (urls : List LC) (hu : ∀ u ∈ urls, goodUrl u = true) :
    containsLit (str "url:") (joinUrls urls) = false := by
  have h1 : containsLit (str "url:") (joinUrls urls ++ str "],\n\x7d") = false :=
    containsLit_join_append (str "url:") urls (str "],\n\x7d")
      (by decide) (by decide) (by decide) (by decide) (by decide)
      (fun u huu => (goodUrl_spec u (hu u huu)).2.2.1)
  exact containsLit_prefix_false _ _ _ h1

/-- The three extraction passes over the rendered array content recover
exactly the URLs, in order. -/
theorem extractUrls_joinUrls (urls : List LC) (hu : ∀ u ∈ urls, goodUrl u = true) :
    extractUrlsFromCapture (joinUrls urls) = urls := by
  unfold extractUrlsFromCapture
  rw [scanSingles_joinUrls urls hu]
  unfold scanUrlFields
  rw [scanUrlFieldsAux_nil_of_no_lit (joinUrls urls) _ (containsLit_url_join urls hu)]
  unfold scanDoubles
  rw [scanDoublesAux_nil_of_no_quote (joinUrls urls) _
    (fun c hc => (joinUrls_no_delim urls hu c hc).2.2)]
  simp

/-- The rpcs regex matches the rendered entry and captures exactly the
rendered array content. -/
theorem matchChainRpcs_render (cid : Nat) (urls : List LC) (hne : urls ≠ [])
    (hu : ∀ u ∈ urls, goodUrl u = true) :
    matchChainRpcs cid (renderRpcEntry cid urls) = some (joinUrls urls) := by
  have hjd := joinUrls_no_delim urls hu
  have h4 : (joinUrls urls ++ str "],\n\x7d").takeWhile (fun c => !(c == ']'))
      = joinUrls urls := by
    rw [takeWhile_append_all _ _ (fun c hc => (hjd c hc).1),
      show (str "],\n\x7d").takeWhile (fun c => !(c == ']')) = [] from rfl]
    exact List.append_nil _
  have h3 : (joinUrls urls ++ str "],\n\x7d").dropWhile (fun c => !(c == ']'))
      = ']' :: str ",\n\x7d" := by
    rw [dropWhile_append_all _ _ (fun c hc => (hjd c hc).1)]
    rfl
  have h5 : (joinUrls urls).isEmpty = false := by
    cases hj : joinUrls urls with
    | nil => exact absurd hj (joinUrls_ne_nil urls hne)
    | cons a b => rfl
  have htry : tryRpcsAt (str "rpcs:" ++ (str " [" ++ (joinUrls urls ++ str "],\n\x7d")))
      = some (joinUrls urls) := by
    unfold tryRpcsAt
    rw [stripLit_self_append]
    have h2 : (str " [" ++ (joinUrls urls ++ str "],\n\x7d")).dropWhile isJsWs
        = '[' :: (joinUrls urls ++ str "],\n\x7d") := by
      rw [show str " [" ++ (joinUrls urls ++ str "],\n\x7d")
        = ' ' :: '[' :: (joinUrls urls ++ str "],\n\x7d") from rfl,
        List.dropWhile_cons_of_pos (by decide), List.dropWhile_cons_of_neg (by decide)]
    simp only [h2, h3, h4, h5]
    simp
  have hcontains : containsLit (str "rpcs:")
      ('p' :: 'c' :: 's' :: ':' :: ' ' :: '[' :: (joinUrls urls ++ str "],\n\x7d")) = false := by
    rw [containsLit_cons_ne _ _ _ (by decide), containsLit_cons_ne _ _ _ (by decide),
      containsLit_cons_ne _ _ _ (by decide), containsLit_cons_ne _ _ _ (by decide),
      containsLit_cons_ne _ _ _ (by decide), containsLit_cons_ne _ _ _ (by decide)]
    exact containsLit_rpcs_join_tail urls hu
  have hfail : ∀ s, s <:+ ('p' :: 'c' :: 's' :: ':' :: ' ' :: '['
      :: (joinUrls urls ++ str "],\n\x7d")) → tryRpcsAt s = none := by
    intro s hs
    exact tryRpcsAt_none_of_no_lit s (containsLit_suffix_false _ _ hcontains s hs)
  have hwin : windowSearch tryRpcsAt (str "\n  "
      ++ ('r' :: 'p' :: 'c' :: 's' :: ':' :: ' ' :: '['
        :: (joinUrls urls ++ str "],\n\x7d"))) = some (joinUrls urls) := by
    refine windowSearch_found tryRpcsAt (str "\n  ") 'r' _ _ (by decide) (by decide) ?_ hfail
    exact htry
  have hhere : tryChainHereWith tryRpcsAt (str (Nat.repr cid)) (renderRpcEntry cid urls)
      = some (joinUrls urls) := by
    unfold tryChainHereWith renderRpcEntry
    rw [List.append_assoc, List.append_assoc, stripLit_self_append]
    rw [show str ": \x7b\n  rpcs: [" ++ (joinUrls urls ++ str "],\n\x7d")
      = ':' :: (' ' :: ('\x7b' :: (str "\n  rpcs: ["
        ++ (joinUrls urls ++ str "],\n\x7d")))) from rfl]
    have hdw2 : (' ' :: ('\x7b' :: (str "\n  rpcs: ["
        ++ (joinUrls urls ++ str "],\n\x7d")))).dropWhile isJsWs
        = '\x7b' :: (str "\n  rpcs: [" ++ (joinUrls urls ++ str "],\n\x7d")) := by
      rw [List.dropWhile_cons_of_pos (by decide), List.dropWhile_cons_of_neg (by decide)]
    simp only [hdw2]
    exact hwin
  have hrne : renderRpcEntry cid urls ≠ [] := by
    unfold renderRpcEntry
    simp [str]
  unfold matchChainRpcs
  cases hr : renderRpcEntry cid urls with
  | nil => exact absurd hr hrne
  | cons d ds =>
    rw [hr] at hhere
    unfold scanFor
    simp only [hhere]

/-- C8: for a chain entry in the RPC-list text whose captured rpcs array
content holds the endpoints in order as bare single-quoted strings, the
extractor recovers each endpoint and returns them in discovery order for
that chain ID; and the extraction passes recover URLs in the three forms —
bare single-quoted strings, `url:`-field values in single-quoted form, and
bare double-quoted strings that begin with `http` and do not contain
`privacy` — as the concrete second conjunct evaluates. -/
theorem chainRpcUrls_render_in_order (cid : Nat) (urls : List LC)
    (hne : urls ≠ []) (hu : ∀ u ∈ urls, goodUrl u = true) :
    chainRpcUrls cid (renderRpcEntry cid urls) = urls
    ∧ extractUrlsFromCapture (str "'a', url: 'b', \"https://c\", \"http://privacy.example\"")
      = [str "a", str "b", str "b", str "https://c"] := by
  constructor
  · unfold chainRpcUrls
    rw [matchChainRpcs_render cid urls hne hu]
    exact extractUrls_joinUrls urls hu
  · decide

/-- C8 witness: the spec's example `rpcs: ['https://a.example',
'https://b.example']` yields both URLs in order for its chain ID. -/
theorem chainRpcUrls_render_in_order_witness :
    (([str "https://a.example", str "https://b.example"] : List LC) ≠ []
      ∧ ∀ u ∈ ([str "https://a.example", str "https://b.example"] : List LC),
          goodUrl u = true)
    ∧ (chainRpcUrls 1 (renderRpcEntry 1 [str "https://a.example", str "https://b.example"])
        = [str "https://a.example", str "https://b.example"]
      ∧ extractUrlsFromCapture (str "'a', url: 'b', \"https://c\", \"http://privacy.example\"")
        = [str "a", str "b", str "b", str "https://c"]) :=
  ⟨by decide, chainRpcUrls_render_in_order 1
    [str "https://a.example", str "https://b.example"] (by decide) (by decide)⟩

/-! ## Theorems: extraction and normalization of a well-formed embedded
object literal -/

/-- `indexOf` of the first occurrence of a character. -/
theorem firstIdxOf_append_no_mem (c : Char) (a r : LC) (ha : c ∉ a) :
    firstIdxOf c (a ++ c :: r) = some a.length := by
  induction a with
  | nil => simp [firstIdxOf]
  | cons d a' ih =>
    have hd : ¬(d = c) := fun h => ha (h ▸ List.mem_cons_self d a')
    rw [List.cons_append]
    simp only [firstIdxOf, if_neg hd, ih (fun h => ha (List.mem_cons_of_mem d h))]
    simp

/-- `lastIndexOf` of the last occurrence of a character. -/
theorem lastIdxOf_append_no_mem (c : Char) (p b : LC) (hb : c ∉ b) :
    lastIdxOf c (p ++ c :: b) = some p.length := by
  unfold lastIdxOf
  have h1 : (p ++ c :: b).reverse = b.reverse ++ c :: p.reverse := by
    rw [List.reverse_append, List.reverse_cons, List.append_assoc, List.singleton_append]
  rw [h1, firstIdxOf_append_no_mem c b.reverse p.reverse (by simpa using hb)]
  simp only [Option.map_some']
  congr 1
  rw [List.length_reverse, List.length_append, List.length_cons]
  omega

/-- The brace slice of a text embedding one brace-delimited block. -/
theorem extractSlice_embed (a m b : LC) (ha : '\x7b' ∉ a) (hb : '\x7d' ∉ b) :
    extractSlice (a ++ ('\x7b' :: (m ++ ('\x7d' :: b))))
      = some ('\x7b' :: (m ++ ['\x7d'])) := by
  have f1 : firstIdxOf '\x7b' (a ++ ('\x7b' :: (m ++ ('\x7d' :: b)))) = some a.length :=
    firstIdxOf_append_no_mem '\x7b' a (m ++ ('\x7d' :: b)) ha
  have hshape : a ++ ('\x7b' :: (m ++ ('\x7d' :: b)))
      = (a ++ ('\x7b' :: m)) ++ ('\x7d' :: b) := by
    simp [List.append_assoc]
  have f2 : lastIdxOf '\x7d' (a ++ ('\x7b' :: (m ++ ('\x7d' :: b))))
      = some (a ++ ('\x7b' :: m)).length := by
    rw [hshape]
    exact lastIdxOf_append_no_mem '\x7d' (a ++ ('\x7b' :: m)) b hb
  have hshape2 : a ++ ('\x7b' :: (m ++ ('\x7d' :: b)))
      = (a ++ ('\x7b' :: (m ++ ['\x7d']))) ++ b := by
    simp [List.append_assoc]
  have hxlen : (a ++ ('\x7b' :: (m ++ ['\x7d']))).length = (a ++ ('\x7b' :: m)).length + 1 := by
    simp [List.length_append]
    omega
  have f3 : jsSubstring (a ++ ('\x7b' :: (m ++ ('\x7d' :: b)))) a.length
      ((a ++ ('\x7b' :: m)).length + 1) = '\x7b' :: (m ++ ['\x7d']) := by
    unfold jsSubstring
    have hle : a.length ≤ (a ++ ('\x7b' :: m)).length + 1 := by
      simp [List.length_append]
      omega
    rw [Nat.max_eq_right hle, Nat.min_eq_left hle, hshape2,
      List.take_left' hxlen, List.drop_left]
  unfold extractSlice
  simp only [f1, f2, f3]

/-- A word character differs from any non-word character. -/
theorem wordChar_ne (c d : Char) (h : isWordChar c = true) (hd : isWordChar d = false) :
    c ≠ d := fun hcd => by
  rw [hcd, hd] at h
  exact absurd h (by simp)

/-- Unpacking `goodKey`. -/
theorem goodKey_spec (k : LC) (h : goodKey k = true) :
    k ≠ [] ∧ ∀ c ∈ k, isWordChar c = true := by
  unfold goodKey at h
  simp only [Bool.and_eq_true, Bool.not_eq_true'] at h
  refine ⟨?_, fun c hc => List.all_eq_true.mp h.2 c hc⟩
  intro he
  subst he
  simp at h

/-- Unpacking `goodVal`. -/
theorem goodVal_spec (v : LC) (h : goodVal v = true) : ∀ c ∈ v, isWordChar c = true :=
  fun c hc => List.all_eq_true.mp h c hc

/-- A character of one rendered entry is a key character, a value character,
or one of the five fixed punctuation characters. -/
theorem renderEntryE_mem (k v : LC) (c : Char) (hc : c ∈ renderEntryE k v) :
    c ∈ k ∨ c ∈ v ∨ c ∈ ([':', ' ', '\'', ',', '\n'] : LC) := by
  unfold renderEntryE at hc
  rcases List.mem_append.mp hc with h | h
  · exact Or.inl h
  · rcases List.mem_append.mp h with h | h
    · right; right
      rw [show str ": '" = [':', ' ', '\''] from rfl] at h
      fin_cases h <;> simp
    · rcases List.mem_append.mp h with h | h
      · exact Or.inr (Or.inl h)
      · right; right
        rw [show str "',\n" = ['\'', ',', '\n'] from rfl] at h
        fin_cases h <;> simp

/-- A character of the rendered entries comes from some pair or is fixed
punctuation. -/
theorem renderEntriesE_mem (kvs : List (LC × LC)) (c : Char) (hc : c ∈ renderEntriesE kvs) :
    (∃ p ∈ kvs, c ∈ p.1 ∨ c ∈ p.2) ∨ c ∈ ([':', ' ', '\'', ',', '\n'] : LC) := by
  induction kvs with
  | nil => simp [renderEntriesE] at hc
  | cons p rest ih =>
    obtain ⟨k, v⟩ := p
    rw [show renderEntriesE ((k, v) :: rest) = renderEntryE k v ++ renderEntriesE rest
      from rfl] at hc
    rcases List.mem_append.mp hc with h | h
    · rcases renderEntryE_mem k v c h with h2 | h2 | h2
      · exact Or.inl ⟨(k, v), List.mem_cons_self _ _, Or.inl h2⟩
      · exact Or.inl ⟨(k, v), List.mem_cons_self _ _, Or.inr h2⟩
      · exact Or.inr h2
    · rcases ih h with ⟨q, hq, hcq⟩ | h2
      · exact Or.inl ⟨q, List.mem_cons_of_mem _ hq, hcq⟩
      · exact Or.inr h2

/-- The sliced object body contains no slash. -/
theorem slice_no_slash (kvs : List (LC × LC))
    (hwf : ∀ p ∈ kvs, goodKey p.1 = true ∧ goodVal p.2 = true) :
    ∀ c ∈ renderEntriesE kvs ++ ['\x7d'], c ≠ '/' := by
  intro c hc
  rcases List.mem_append.mp hc with h | h
  · rcases renderEntriesE_mem kvs c h with ⟨p, hp, hcp⟩ | h2
    · obtain ⟨hk, hv⟩ := hwf p hp
      have hword : isWordChar c = true := by
        rcases hcp with h3 | h3
        · exact (goodKey_spec p.1 hk).2 c h3
        · exact goodVal_spec p.2 hv c h3
      exact wordChar_ne c '/' hword (by decide)
    · fin_cases h2 <;> decide
  · rw [List.mem_singleton] at h
    subst h
    decide

/-- `dropToEol` never lengthens a list. -/
theorem dropToEol_length_le (l : LC) : (dropToEol l).length ≤ l.length := by
  induction l with
  | nil => simp [dropToEol]
  | cons c rest ih =>
    by_cases hc : c = '\n'
    · simp [dropToEol, hc]
    · simp only [dropToEol, if_neg hc]
      exact Nat.le_succ_of_le ih

/-- The fuel of `stripCommentsAux` is irrelevant above the input length. -/
theorem stripCommentsAux_fuel : ∀ (f1 f2 : Nat) (l : LC), l.length ≤ f1 → l.length ≤ f2 →
    stripCommentsAux f1 l = stripCommentsAux f2 l := by
  intro f1
  induction f1 with
  | zero =>
    intro f2 l h1 h2
    have hl : l = [] := List.eq_nil_of_length_eq_zero (Nat.le_zero.mp h1)
    subst hl
    cases f2 <;> rfl
  | succ f1' ih =>
    intro f2 l h1 h2
    cases l with
    | nil => cases f2 <;> rfl
    | cons c rest =>
      cases f2 with
      | zero => simp at h2
      | succ f2' =>
        simp only [List.length_cons, Nat.succ_le_succ_iff] at h1 h2
        simp only [stripCommentsAux]
        by_cases hcond : c = '/' ∧ rest.head? = some '/'
        · rw [if_pos hcond, if_pos hcond]
          have hdl : (dropToEol rest.tail).length ≤ rest.length := by
            have h3 := dropToEol_length_le rest.tail
            have h4 := List.length_tail rest
            omega
          exact ih f2' _ (by omega) (by omega)
        · rw [if_neg hcond, if_neg hcond, ih f2' rest h1 h2]

/-- A character that does not open a comment passes through the strip. -/
theorem stripComments_cons (c : Char) (rest : LC)
    (h : ¬(c = '/' ∧ rest.head? = some '/')) :
    stripComments (c :: rest) = c :: stripComments rest := by
  unfold stripComments
  simp only [List.length_cons, stripCommentsAux, if_neg h]

/-- A `//` removes the rest of its line. -/
theorem stripComments_comment (rest : LC) :
    stripComments ('/' :: '/' :: rest) = stripComments (dropToEol rest) := by
  unfold stripComments
  simp only [List.length_cons, stripCommentsAux]
  rw [if_pos (by simp), List.tail_cons]
  exact stripCommentsAux_fuel _ _ _
    (Nat.le_succ_of_le (dropToEol_length_le rest)) (Nat.le_refl _)

/-- Slash-free text passes through the strip unchanged. -/
theorem stripCommentsAux_no_slash (l : LC) : ∀ (fuel : Nat), (∀ c ∈ l, c ≠ '/') →
    stripCommentsAux fuel l = l := by
  induction l with
  | nil => intro fuel _; cases fuel <;> rfl
  | cons c rest ih =>
    intro fuel h
    cases fuel with
    | zero => rfl
    | succ f =>
      simp only [stripCommentsAux]
      rw [if_neg (fun hcon => h c (List.mem_cons_self c rest) hcon.1),
        ih f (fun d hd => h d (List.mem_cons_of_mem c hd))]

/-- `dropToEol` over a newline-free block reaches the newline. -/
theorem dropToEol_append (a r : LC) (h : ∀ c ∈ a, c ≠ '\n') :
    dropToEol (a ++ '\n' :: r) = '\n' :: r := by
  induction a with
  | nil => simp [dropToEol]
  | cons c a' ih =>
    rw [List.cons_append]
    simp only [dropToEol, if_neg (h c (List.mem_cons_self c a'))]
    exact ih (fun d hd => h d (List.mem_cons_of_mem c hd))

/-- The comment strip on the sliced object body. -/
theorem stripComments_slice (kvs : List (LC × LC))
    (hwf : ∀ p ∈ kvs, goodKey p.1 = true ∧ goodVal p.2 = true) :
    stripComments ('\x7b' :: (str " // chain ids\n" ++ (renderEntriesE kvs ++ ['\x7d'])))
      = '\x7b' :: ' ' :: '\n' :: (renderEntriesE kvs ++ ['\x7d']) := by
  rw [show '\x7b' :: (str " // chain ids\n" ++ (renderEntriesE kvs ++ ['\x7d']))
    = '\x7b' :: ' ' :: '/' :: '/' :: (str " chain ids" ++ '\n'
      :: (renderEntriesE kvs ++ ['\x7d'])) from rfl]
  rw [stripComments_cons '\x7b' _ (by simp), stripComments_cons ' ' _ (by simp),
    stripComments_comment, dropToEol_append (str " chain ids") _ (by decide)]
  rw [stripComments_cons '\n' _ (by simp)]
  unfold stripComments
  rw [stripCommentsAux_no_slash _ _ (slice_no_slash kvs hwf)]

/-- A word character is not JavaScript whitespace. -/
theorem wordChar_not_jsws (c : Char) (h : isWordChar c = true) : isJsWs c = false := by
  cases hjs : isJsWs c
  · rfl
  · exfalso
    unfold isJsWs at hjs
    simp only [Bool.or_eq_true, beq_iff_eq] at hjs
    rcases hjs with ((((h1 | h1) | h1) | h1) | h1) | h1 <;> subst h1 <;>
      exact absurd h (by decide)

/-- A non-comma head passes through the trailing-comma strip. -/
theorem stc_cons_of_ne (c : Char) (rest : LC) (hc : c ≠ ',') :
    stripTrailingCommas (c :: rest) = c :: stripTrailingCommas rest := by
  simp only [stripTrailingCommas]
  rw [if_neg (fun hcon => hc hcon.1)]

/-- A comma not followed by whitespace-then-bracket is kept. -/
theorem stc_cons_comma_keep (rest : LC) (h : closesAhead rest = false) :
    stripTrailingCommas (',' :: rest) = ',' :: stripTrailingCommas rest := by
  simp only [stripTrailingCommas]
  rw [if_neg (fun hcon => by rw [h] at hcon; exact absurd hcon.2 (by simp))]

/-- A comma followed by whitespace-then-bracket is dropped. -/
theorem stc_cons_comma_drop (rest : LC) (h : closesAhead rest = true) :
    stripTrailingCommas (',' :: rest) = stripTrailingCommas rest := by
  simp only [stripTrailingCommas]
  rw [if_pos (by simp [h])]

/-- The trailing-comma strip passes over a comma-free block. -/
theorem stc_append_no_comma (a r : LC) (h : ∀ c ∈ a, c ≠ ',') :
    stripTrailingCommas (a ++ r) = a ++ stripTrailingCommas r := by
  induction a with
  | nil => simp
  | cons c a' ih =>
    rw [List.cons_append, stc_cons_of_ne c _ (h c (List.mem_cons_self c a')),
      ih (fun d hd => h d (List.mem_cons_of_mem c hd)), List.cons_append]

/-- After a newline, a word character means the comma does not close. -/
theorem closesAhead_word (kc : Char) (Y : LC) (hk : isWordChar kc = true) :
    closesAhead ('\n' :: kc :: Y) = false := by
  unfold closesAhead
  rw [List.dropWhile_cons_of_pos (by decide),
    List.dropWhile_cons_of_neg (by simp [wordChar_not_jsws kc hk])]
  simp only [Bool.or_eq_false_iff]
  constructor
  · exact beq_eq_false_iff_ne.mpr (wordChar_ne kc '\x7d' hk (by decide))
  · exact beq_eq_false_iff_ne.mpr (wordChar_ne kc ']' hk (by decide))

/-- After a newline, a closing brace means the comma closes. -/
theorem closesAhead_brace (Y : LC) : closesAhead ('\n' :: '\x7d' :: Y) = true := by
  unfold closesAhead
  rw [List.dropWhile_cons_of_pos (by decide), List.dropWhile_cons_of_neg (by decide)]
  simp

/-- The rendered entry head through value is comma-free. -/
theorem entry_prefix_no_comma (k v : LC) (hk : goodKey k = true) (hv : goodVal v = true) :
    ∀ c ∈ k ++ (str ": '" ++ (v ++ ['\''])), c ≠ ',' := by
  intro c hc
  rcases List.mem_append.mp hc with h | h
  · exact wordChar_ne c ',' ((goodKey_spec k hk).2 c h) (by decide)
  · rcases List.mem_append.mp h with h | h
    · rw [show str ": '" = [':', ' ', '\''] from rfl] at h
      fin_cases h <;> decide
    · rcases List.mem_append.mp h with h | h
      · exact wordChar_ne c ',' (goodVal_spec v hv c h) (by decide)
      · rw [List.mem_singleton] at h
        subst h
        decide

/-- The trailing-comma strip on the rendered entries: only the last entry's
comma (the one preceding the closing brace) is dropped. -/
theorem stc_entries (kvs : List (LC × LC))
    (hwf : ∀ p ∈ kvs, goodKey p.1 = true ∧ goodVal p.2 = true) :
    stripTrailingCommas (renderEntriesE kvs ++ ['\x7d']) = entriesNoComma kvs ++ ['\x7d'] := by
  induction kvs with
  | nil => rfl
  | cons p rest ih =>
    obtain ⟨k, v⟩ := p
    obtain ⟨hk, hv⟩ := hwf (k, v) (List.mem_cons_self _ _)
    have hshape : renderEntriesE ((k, v) :: rest) ++ ['\x7d']
        = (k ++ (str ": '" ++ (v ++ ['\''])))
          ++ (',' :: '\n' :: (renderEntriesE rest ++ ['\x7d'])) := by
      rw [show renderEntriesE ((k, v) :: rest) = renderEntryE k v ++ renderEntriesE rest
        from rfl]
      unfold renderEntryE
      rw [show str "',\n" = '\'' :: ',' :: '\n' :: ([] : LC) from rfl]
      simp [List.append_assoc]
    rw [hshape, stc_append_no_comma _ _ (entry_prefix_no_comma k v hk hv)]
    cases rest with
    | nil =>
      rw [show renderEntriesE [] ++ ['\x7d'] = '\x7d' :: ([] : LC) from rfl,
        stc_cons_comma_drop _ (closesAhead_brace []),
        stc_cons_of_ne '\n' _ (by decide), stc_cons_of_ne '\x7d' _ (by decide)]
      rw [show stripTrailingCommas [] = [] from rfl]
      rw [show entriesNoComma [(k, v)] ++ ['\x7d']
        = (k ++ (str ": '" ++ (v ++ ['\'']))) ++ ('\n' :: '\x7d' :: ([] : LC)) by
          unfold entriesNoComma
          rw [show str "'\n" = '\'' :: '\n' :: ([] : LC) from rfl]
          simp [List.append_assoc]]
    | cons q rest2 =>
      obtain ⟨k2, v2⟩ := q
      obtain ⟨hk2, _⟩ := hwf (k2, v2) (List.mem_cons_of_mem _ (List.mem_cons_self _ _))
      obtain ⟨hk2ne, hk2w⟩ := goodKey_spec k2 hk2
      obtain ⟨kc, k2', hk2c⟩ : ∃ kc k2', k2 = kc :: k2' := by
        cases k2 with
        | nil => exact absurd rfl hk2ne
        | cons a b => exact ⟨a, b, rfl⟩
      have hshape2 : renderEntriesE ((k2, v2) :: rest2) ++ ['\x7d']
          = kc :: (k2' ++ (str ": '" ++ (v2 ++ str "',\n"))
            ++ (renderEntriesE rest2 ++ ['\x7d'])) := by
        rw [show renderEntriesE ((k2, v2) :: rest2)
          = renderEntryE k2 v2 ++ renderEntriesE rest2 from rfl]
        unfold renderEntryE
        rw [hk2c]
        simp [List.append_assoc]
      rw [hshape2]
      have hkcw : isWordChar kc = true := hk2w kc (by rw [hk2c]; exact List.mem_cons_self _ _)
      rw [stc_cons_comma_keep _ (closesAhead_word kc _ hkcw),
        stc_cons_of_ne '\n' _ (by decide)]
      rw [← hshape2, ih (fun w hw => hwf w (List.mem_cons_of_mem _ hw))]
      rw [show entriesNoComma ((k, v) :: (k2, v2) :: rest2)
        = renderEntryE k v ++ entriesNoComma ((k2, v2) :: rest2) from rfl]
      unfold renderEntryE
      rw [show str "',\n" = '\'' :: ',' :: '\n' :: ([] : LC) from rfl]
      simp [List.append_assoc]

/-- A word character is not a string delimiter. -/
theorem wordChar_not_quote (c : Char) (h : isWordChar c = true) : isQuoteChar c = false := by
  unfold isQuoteChar
  simp only [Bool.or_eq_false_iff]
  exact ⟨beq_eq_false_iff_ne.mpr (wordChar_ne c '\'' h (by decide)),
    beq_eq_false_iff_ne.mpr (wordChar_ne c '"' h (by decide))⟩

/-- `stripQuote` never lengthens a list. -/
theorem stripQuote_length_le (l : LC) : (stripQuote l).length ≤ l.length := by
  cases l with
  | nil => simp [stripQuote]
  | cons c rest =>
    by_cases hc : isQuoteChar c = true
    · simp [stripQuote, hc]
    · simp [stripQuote, hc]

/-- A key match strictly shortens the text. -/
theorem tryKeyMatch_length (l w r : LC) (h : tryKeyMatch l = some (w, r)) :
    r.length < l.length := by
  unfold tryKeyMatch at h
  by_cases he : ((stripQuote l).takeWhile isWordChar).isEmpty
  · rw [if_pos he] at h
    exact absurd h (by simp)
  · rw [if_neg he] at h
    split at h
    · rename_i r' heq
      injection h with h2
      injection h2 with hw hr
      subst hr
      have h1 : (':' :: r').length ≤ ((stripQuote l).dropWhile isWordChar).length := by
        rw [← heq]
        exact stripQuote_length_le _
      have h2l := dropWhile_length_le (p := isWordChar) (stripQuote l)
      have h3 := stripQuote_length_le l
      simp only [List.length_cons] at h1
      omega
    · exact absurd h (by simp)

/-- The fuel of `quoteKeysAux` is irrelevant above the input length. -/
theorem quoteKeysAux_fuel : ∀ (f1 f2 : Nat) (l : LC), l.length ≤ f1 → l.length ≤ f2 →
    quoteKeysAux f1 l = quoteKeysAux f2 l := by
  intro f1
  induction f1 with
  | zero =>
    intro f2 l h1 h2
    have hl : l = [] := List.eq_nil_of_length_eq_zero (Nat.le_zero.mp h1)
    subst hl
    cases f2 <;> rfl
  | succ f1' ih =>
    intro f2 l h1 h2
    cases l with
    | nil => cases f2 <;> rfl
    | cons c rest =>
      cases f2 with
      | zero => simp at h2
      | succ f2' =>
        simp only [List.length_cons, Nat.succ_le_succ_iff] at h1 h2
        simp only [quoteKeysAux]
        cases htk : tryKeyMatch (c :: rest) with
        | none =>
          simp only [htk]
          rw [ih f2' rest h1 h2]
        | some p =>
          obtain ⟨w, r⟩ := p
          have hlen := tryKeyMatch_length _ _ _ htk
          simp only [List.length_cons] at hlen
          simp only [htk]
          rw [ih f2' r (by omega) (by omega)]

/-- A position with no key match passes one character through. -/
theorem quoteKeys_cons_none (c : Char) (rest : LC) (h : tryKeyMatch (c :: rest) = none) :
    quoteKeys (c :: rest) = c :: quoteKeys rest := by
  unfold quoteKeys
  simp only [List.length_cons, quoteKeysAux, h]

/-- A key match emits the double-quoted key and resumes after the colon. -/
theorem quoteKeys_cons_some (c : Char) (rest w r : LC)
    (h : tryKeyMatch (c :: rest) = some (w, r)) :
    quoteKeys (c :: rest) = '"' :: (w ++ '"' :: ':' :: quoteKeys r) := by
  unfold quoteKeys
  simp only [List.length_cons, quoteKeysAux, h]
  have hlen := tryKeyMatch_length _ _ _ h
  simp only [List.length_cons] at hlen
  rw [quoteKeysAux_fuel rest.length r.length r (by omega) (Nat.le_refl _)]

/-- A key match on a nonempty text. -/
theorem quoteKeys_ne_nil_some (l w r : LC) (hl : l ≠ []) (h : tryKeyMatch l = some (w, r)) :
    quoteKeys l = '"' :: (w ++ '"' :: ':' :: quoteKeys r) := by
  cases l with
  | nil => exact absurd rfl hl
  | cons c rest => exact quoteKeys_cons_some c rest w r h

/-- A head that is neither delimiter nor word character never opens a key
match. -/
theorem tryKeyMatch_none_head (c : Char) (rest : LC)
    (hq : isQuoteChar c = false) (hw : isWordChar c = false) :
    tryKeyMatch (c :: rest) = none := by
  unfold tryKeyMatch
  have h1 : stripQuote (c :: rest) = c :: rest := by
    simp [stripQuote, hq]
  rw [h1, List.takeWhile_cons_of_neg (by simp [hw])]
  simp

/-- The key regex matches a bare well-formed key followed by a colon. -/
theorem tryKeyMatch_at_key (k rest : LC) (hk : goodKey k = true) :
    tryKeyMatch (k ++ ':' :: rest) = some (k, rest) := by
  obtain ⟨hne, hw⟩ := goodKey_spec k hk
  have hsq : stripQuote (k ++ ':' :: rest) = k ++ ':' :: rest := by
    cases hkc : k with
    | nil => exact absurd hkc hne
    | cons kc k' =>
      rw [List.cons_append]
      simp [stripQuote,
        wordChar_not_quote kc (hw kc (by rw [hkc]; exact List.mem_cons_self _ _))]
  have htw : (k ++ ':' :: rest).takeWhile isWordChar = k := by
    rw [takeWhile_append_all k _ hw, List.takeWhile_cons_of_neg (by decide)]
    exact List.append_nil k
  have hdw : (k ++ ':' :: rest).dropWhile isWordChar = ':' :: rest := by
    rw [dropWhile_append_all k _ hw, List.dropWhile_cons_of_neg (by decide)]
  unfold tryKeyMatch
  rw [hsq, htw, hdw]
  rw [if_neg (fun hcon => hne (List.isEmpty_iff.mp hcon)),
    show stripQuote (':' :: rest) = ':' :: rest by simp [stripQuote, isQuoteChar]]
  rfl

/-- Inside a word-character run followed by a closing quote whose
continuation does not begin with a colon, no key match starts. -/
theorem tryKeyMatch_word_quote (v rest : LC) (hv : ∀ c ∈ v, isWordChar c = true)
    (hr : ∀ r0, rest.head? = some r0 → isWordChar r0 = false ∧ r0 ≠ ':') :
    tryKeyMatch (v ++ '\'' :: rest) = none := by
  cases v with
  | nil =>
    unfold tryKeyMatch
    rw [List.nil_append,
      show stripQuote ('\'' :: rest) = rest by simp [stripQuote, isQuoteChar]]
    have htw : rest.takeWhile isWordChar = [] := by
      cases hrc : rest with
      | nil => rfl
      | cons r0 rest' =>
        exact List.takeWhile_cons_of_neg (by
          simp [(hr r0 (by rw [hrc]; rfl)).1])
    rw [htw]
    simp
  | cons c v' =>
    unfold tryKeyMatch
    have hsq : stripQuote ((c :: v') ++ '\'' :: rest) = (c :: v') ++ '\'' :: rest := by
      rw [List.cons_append]
      simp [stripQuote, wordChar_not_quote c (hv c (List.mem_cons_self _ _))]
    have htw : ((c :: v') ++ '\'' :: rest).takeWhile isWordChar = c :: v' := by
      rw [takeWhile_append_all _ _ hv, List.takeWhile_cons_of_neg (by decide)]
      exact List.append_nil _
    have hdw : ((c :: v') ++ '\'' :: rest).dropWhile isWordChar = '\'' :: rest := by
      rw [dropWhile_append_all _ _ hv, List.dropWhile_cons_of_neg (by decide)]
    rw [hsq, htw, hdw, if_neg (by simp),
      show stripQuote ('\'' :: rest) = rest by simp [stripQuote, isQuoteChar]]
    split
    · rename_i r' heq
      obtain ⟨h1, h2⟩ := hr ':' rfl
      exact absurd rfl h2
    · rfl

/-- The key scan walks over a word run followed by a closing quote. -/
theorem quoteKeys_word_walk (v rest : LC) (hv : ∀ c ∈ v, isWordChar c = true)
    (hr : ∀ r0, rest.head? = some r0 → isWordChar r0 = false ∧ r0 ≠ ':') :
    quoteKeys (v ++ '\'' :: rest) = v ++ '\'' :: quoteKeys rest := by
  induction v with
  | nil =>
    rw [List.nil_append, List.nil_append]
    exact quoteKeys_cons_none '\'' rest (by
      simpa using tryKeyMatch_word_quote [] rest (by simp) hr)
  | cons c v' ih =>
    rw [List.cons_append, quoteKeys_cons_none c _ (by
      have := tryKeyMatch_word_quote (c :: v') rest hv hr
      rwa [List.cons_append] at this)]
    rw [ih (fun d hd => hv d (List.mem_cons_of_mem c hd)), List.cons_append]

/-- The key scan over one single-quoted value. -/
theorem quoteKeys_value (v rest : LC) (hv : ∀ c ∈ v, isWordChar c = true)
    (hr : ∀ r0, rest.head? = some r0 → isWordChar r0 = false ∧ r0 ≠ ':') :
    quoteKeys ('\'' :: (v ++ '\'' :: rest)) = '\'' :: (v ++ '\'' :: quoteKeys rest) := by
  have hopen : tryKeyMatch ('\'' :: (v ++ '\'' :: rest)) = none := by
    unfold tryKeyMatch
    rw [show stripQuote ('\'' :: (v ++ '\'' :: rest)) = v ++ '\'' :: rest
      by simp [stripQuote, isQuoteChar]]
    cases v with
    | nil =>
      rw [List.nil_append]
      have htw : ('\'' :: rest).takeWhile isWordChar = [] :=
        List.takeWhile_cons_of_neg (by decide)
      rw [htw]
      simp
    | cons c v' =>
      have htw : ((c :: v') ++ '\'' :: rest).takeWhile isWordChar = c :: v' := by
        rw [takeWhile_append_all _ _ hv, List.takeWhile_cons_of_neg (by decide)]
        exact List.append_nil _
      have hdw : ((c :: v') ++ '\'' :: rest).dropWhile isWordChar = '\'' :: rest := by
        rw [dropWhile_append_all _ _ hv, List.dropWhile_cons_of_neg (by decide)]
      rw [htw, hdw, if_neg (by simp),
        show stripQuote ('\'' :: rest) = rest by simp [stripQuote, isQuoteChar]]
      split
      · rename_i r' heq
        obtain ⟨h1, h2⟩ := hr ':' rfl
        exact absurd rfl h2
      · rfl
  rw [quoteKeys_cons_none _ _ hopen, quoteKeys_word_walk v rest hv hr]

/-- The key scan rewrites one full `key: 'value'` entry. -/
theorem quoteKeys_entry (k v tail : LC) (hk : goodKey k = true) (hv : goodVal v = true)
    (htail : ∀ r0, tail.head? = some r0 → isWordChar r0 = false ∧ r0 ≠ ':') :
    quoteKeys (k ++ (':' :: ' ' :: '\'' :: (v ++ ('\'' :: tail)))) =
      '"' :: (k ++ ('"' :: ':' :: ' ' :: '\'' :: (v ++ ('\'' :: quoteKeys tail)))) := by
  have hvv := goodVal_spec v hv
  rw [quoteKeys_ne_nil_some (k ++ ':' :: (' ' :: '\'' :: (v ++ ('\'' :: tail)))) k _
    (by simp) (tryKeyMatch_at_key k _ hk)]
  rw [quoteKeys_cons_none ' ' _ (tryKeyMatch_none_head ' ' _ (by decide) (by decide))]
  rw [quoteKeys_value v tail hvv htail]

/-- The key scan quotes every key of the comma-stripped entries. -/
theorem quoteKeys_entries (kvs : List (LC × LC))
    (hwf : ∀ p ∈ kvs, goodKey p.1 = true ∧ goodVal p.2 = true) :
    quoteKeys (entriesNoComma kvs ++ ['\x7d']) = entriesQ kvs ++ ['\x7d'] := by
  induction kvs with
  | nil => decide
  | cons hd tl ih =>
    obtain ⟨k, v⟩ := hd
    obtain ⟨hk, hv⟩ := hwf (k, v) (List.mem_cons_self _ _)
    cases tl with
    | nil =>
      rw [show entriesNoComma [(k, v)] ++ ['\x7d'] =
          k ++ (':' :: ' ' :: '\'' :: (v ++ ('\'' :: ('\n' :: ['\x7d'])))) from by
        simp only [entriesNoComma]
        rw [show str ": '" = ':' :: ' ' :: '\'' :: ([] : LC) from rfl,
          show str "'\n" = '\'' :: '\n' :: ([] : LC) from rfl]
        simp [List.append_assoc]]
      rw [quoteKeys_entry k v ('\n' :: ['\x7d']) hk hv (by
        intro r0 h0
        rw [List.head?_cons] at h0
        injection h0 with h1
        subst h1
        exact ⟨by decide, by decide⟩)]
      rw [show quoteKeys ('\n' :: ['\x7d']) = '\n' :: ['\x7d'] from by decide]
      simp [entriesQ, List.append_assoc]
    | cons hd2 tl2 =>
      obtain ⟨k2, v2⟩ := hd2
      rw [show entriesNoComma ((k, v) :: (k2, v2) :: tl2) ++ ['\x7d'] =
          k ++ (':' :: ' ' :: '\'' ::
            (v ++ ('\'' :: (',' :: '\n' ::
              (entriesNoComma ((k2, v2) :: tl2) ++ ['\x7d']))))) from by
        rw [show entriesNoComma ((k, v) :: (k2, v2) :: tl2) =
          renderEntryE k v ++ entriesNoComma ((k2, v2) :: tl2) from rfl]
        unfold renderEntryE
        rw [show str ": '" = ':' :: ' ' :: '\'' :: ([] : LC) from rfl,
          show str "',\n" = '\'' :: ',' :: '\n' :: ([] : LC) from rfl]
        simp [List.append_assoc]]
      rw [quoteKeys_entry k v _ hk hv (by
        intro r0 h0
        rw [List.head?_cons] at h0
        injection h0 with h1
        subst h1
        exact ⟨by decide, by decide⟩)]
      rw [quoteKeys_cons_none ',' _ (tryKeyMatch_none_head ',' _ (by decide) (by decide)),
        quoteKeys_cons_none '\n' _ (tryKeyMatch_none_head '\n' _ (by decide) (by decide)),
        ih (fun p hp => hwf p (List.mem_cons_of_mem _ hp))]
      rw [show entriesQ ((k, v) :: (k2, v2) :: tl2) =
        '"' :: (k ++ ('"' :: ':' :: ' ' :: '\'' ::
          (v ++ ('\'' :: ',' :: '\n' :: entriesQ ((k2, v2) :: tl2))))) from rfl]
      simp [List.append_assoc]

/-- The key scan over the comment-stripped, comma-stripped document. -/
theorem quoteKeys_doc (kvs : List (LC × LC))
    (hwf : ∀ p ∈ kvs, goodKey p.1 = true ∧ goodVal p.2 = true) :
    quoteKeys ('\x7b' :: ' ' :: '\n' :: (entriesNoComma kvs ++ ['\x7d'])) =
      '\x7b' :: ' ' :: '\n' :: (entriesQ kvs ++ ['\x7d']) := by
  rw [quoteKeys_cons_none '\x7b' _ (tryKeyMatch_none_head _ _ (by decide) (by decide)),
    quoteKeys_cons_none ' ' _ (tryKeyMatch_none_head _ _ (by decide) (by decide)),
    quoteKeys_cons_none '\n' _ (tryKeyMatch_none_head _ _ (by decide) (by decide)),
    quoteKeys_entries kvs hwf]

/-- Quote conversion distributes over append. -/
theorem toDouble_append (a b : LC) :
    toDoubleQuotes (a ++ b) = toDoubleQuotes a ++ toDoubleQuotes b := by
  unfold toDoubleQuotes
  exact List.map_append _ a b

/-- Quote conversion fixes quote-free text. -/
theorem toDouble_id (l : LC) (h : ∀ c ∈ l, c ≠ '\'') : toDoubleQuotes l = l := by
  induction l with
  | nil => rfl
  | cons c rest ih =>
    unfold toDoubleQuotes at ih ⊢
    rw [List.map_cons, if_neg (h c (List.mem_cons_self _ _)),
      ih (fun d hd => h d (List.mem_cons_of_mem c hd))]

/-- Quote conversion rewrites one quoted-key entry. -/
theorem toDouble_entry (k v tail : LC) (hk : ∀ c ∈ k, isWordChar c = true)
    (hv : ∀ c ∈ v, isWordChar c = true) :
    toDoubleQuotes ('"' :: (k ++ ('"' :: ':' :: ' ' :: '\'' :: (v ++ ('\'' :: tail))))) =
      '"' :: (k ++ ('"' :: ':' :: ' ' :: '"' :: (v ++ ('"' :: toDoubleQuotes tail)))) := by
  have hkid : toDoubleQuotes k = k :=
    toDouble_id k (fun c hc => wordChar_ne c '\'' (hk c hc) (by decide))
  have hvid : toDoubleQuotes v = v :=
    toDouble_id v (fun c hc => wordChar_ne c '\'' (hv c hc) (by decide))
  unfold toDoubleQuotes at hkid hvid ⊢
  simp only [List.map_cons, List.map_append, hkid, hvid]
  simp

/-- Quote conversion turns the quoted-key entries into JSON members. -/
theorem toDouble_entries (kvs : List (LC × LC))
    (hwf : ∀ p ∈ kvs, goodKey p.1 = true ∧ goodVal p.2 = true) :
    toDoubleQuotes (entriesQ kvs ++ ['\x7d']) = entriesJson kvs ++ ['\x7d'] := by
  induction kvs with
  | nil => decide
  | cons hd tl ih =>
    obtain ⟨k, v⟩ := hd
    obtain ⟨hk, hv⟩ := hwf (k, v) (List.mem_cons_self _ _)
    obtain ⟨hkne, hkw⟩ := goodKey_spec k hk
    have hvw := goodVal_spec v hv
    cases tl with
    | nil =>
      rw [show entriesQ [(k, v)] ++ ['\x7d'] =
          '"' :: (k ++ ('"' :: ':' :: ' ' :: '\'' ::
            (v ++ ('\'' :: ('\n' :: ['\x7d']))))) from by
        simp [entriesQ, List.append_assoc]]
      rw [toDouble_entry k v ('\n' :: ['\x7d']) hkw hvw]
      rw [show toDoubleQuotes ('\n' :: ['\x7d']) = '\n' :: ['\x7d'] from by decide]
      simp [entriesJson, List.append_assoc]
    | cons hd2 tl2 =>
      obtain ⟨k2, v2⟩ := hd2
      rw [show entriesQ ((k, v) :: (k2, v2) :: tl2) ++ ['\x7d'] =
          '"' :: (k ++ ('"' :: ':' :: ' ' :: '\'' ::
            (v ++ ('\'' :: (',' :: '\n' ::
              (entriesQ ((k2, v2) :: tl2) ++ ['\x7d'])))))) from by
        rw [show entriesQ ((k, v) :: (k2, v2) :: tl2) =
          '"' :: (k ++ ('"' :: ':' :: ' ' :: '\'' ::
            (v ++ ('\'' :: ',' :: '\n' :: entriesQ ((k2, v2) :: tl2))))) from rfl]
        simp [List.append_assoc]]
      rw [toDouble_entry k v _ hkw hvw]
      rw [show toDoubleQuotes (',' :: '\n' :: (entriesQ ((k2, v2) :: tl2) ++ ['\x7d'])) =
          ',' :: '\n' :: toDoubleQuotes (entriesQ ((k2, v2) :: tl2) ++ ['\x7d']) from by
        unfold toDoubleQuotes
        simp]
      rw [ih (fun p hp => hwf p (List.mem_cons_of_mem _ hp))]
      rw [show entriesJson ((k, v) :: (k2, v2) :: tl2) =
        '"' :: (k ++ ('"' :: ':' :: ' ' :: '"' ::
          (v ++ ('"' :: ',' :: '\n' :: entriesJson ((k2, v2) :: tl2))))) from rfl]
      simp [List.append_assoc]

/-- The string parser reads a delimiter-free quoted string at the head. -/
theorem parseJsonString_at (s r : LC) (hs : ∀ c ∈ s, isWordChar c = true) :
    parseJsonString ('"' :: (s ++ '"' :: r)) = some (s, r) := by
  have hp : ∀ c ∈ s, (!(c == '"' || c == '\\')) = true := by
    intro c hc
    have h1 : (c == '"') = false :=
      beq_eq_false_iff_ne.mpr (wordChar_ne c '"' (hs c hc) (by decide))
    have h2 : (c == '\\') = false :=
      beq_eq_false_iff_ne.mpr (wordChar_ne c '\\' (hs c hc) (by decide))
    rw [h1, h2]
    rfl
  have hdw : (s ++ '"' :: r).dropWhile (fun c => !(c == '"' || c == '\\')) = '"' :: r := by
    rw [dropWhile_append_all s _ hp, List.dropWhile_cons_of_neg (by decide)]
  have htw : (s ++ '"' :: r).takeWhile (fun c => !(c == '"' || c == '\\')) = s := by
    rw [takeWhile_append_all s _ hp, List.takeWhile_cons_of_neg (by decide), List.append_nil]
  simp only [parseJsonString, hdw, htw]

/-- The member parser consumes a final `"key": "value"` member and the
closing brace. -/
theorem parseMembersAux_last (fuel : Nat) (k v : LC)
    (hkw : ∀ c ∈ k, isWordChar c = true) (hvw : ∀ c ∈ v, isWordChar c = true) :
    parseMembersAux (fuel + 1)
      ('"' :: (k ++ ('"' :: ':' :: ' ' :: '"' :: (v ++ ('"' :: ('\n' :: ['\x7d'])))))) =
      some ([(k, v)], []) := by
  have h1 := parseJsonString_at k (':' :: ' ' :: '"' :: (v ++ ('"' :: ('\n' :: ['\x7d'])))) hkw
  have h2 : skipWs (':' :: ' ' :: '"' :: (v ++ ('"' :: ('\n' :: ['\x7d'])))) =
      ':' :: ' ' :: '"' :: (v ++ ('"' :: ('\n' :: ['\x7d']))) := by
    unfold skipWs
    rw [List.dropWhile_cons_of_neg (by decide)]
  have h3 : skipWs (' ' :: '"' :: (v ++ ('"' :: ('\n' :: ['\x7d'])))) =
      '"' :: (v ++ ('"' :: ('\n' :: ['\x7d']))) := by
    unfold skipWs
    rw [List.dropWhile_cons_of_pos (by decide), List.dropWhile_cons_of_neg (by decide)]
  have h4 := parseJsonString_at v ('\n' :: ['\x7d']) hvw
  have h5 : skipWs ('\n' :: ['\x7d']) = ['\x7d'] := by decide
  simp only [parseMembersAux, h1, h2, h3, h4, h5]

/-- The member parser consumes one `"key": "value",` member and continues on
the remainder. -/
theorem parseMembersAux_cons (fuel : Nat) (k v rest : LC) (kvs : List (LC × LC))
    (hkw : ∀ c ∈ k, isWordChar c = true) (hvw : ∀ c ∈ v, isWordChar c = true)
    (hws : skipWs rest = rest) (hrec : parseMembersAux fuel rest = some (kvs, [])) :
    parseMembersAux (fuel + 1)
      ('"' :: (k ++ ('"' :: ':' :: ' ' :: '"' :: (v ++ ('"' :: (',' :: '\n' :: rest)))))) =
      some ((k, v) :: kvs, []) := by
  have h1 := parseJsonString_at k (':' :: ' ' :: '"' :: (v ++ ('"' :: (',' :: '\n' :: rest)))) hkw
  have h2 : skipWs (':' :: ' ' :: '"' :: (v ++ ('"' :: (',' :: '\n' :: rest)))) =
      ':' :: ' ' :: '"' :: (v ++ ('"' :: (',' :: '\n' :: rest))) := by
    unfold skipWs
    rw [List.dropWhile_cons_of_neg (by decide)]
  have h3 : skipWs (' ' :: '"' :: (v ++ ('"' :: (',' :: '\n' :: rest)))) =
      '"' :: (v ++ ('"' :: (',' :: '\n' :: rest))) := by
    unfold skipWs
    rw [List.dropWhile_cons_of_pos (by decide), List.dropWhile_cons_of_neg (by decide)]
  have h4 := parseJsonString_at v (',' :: '\n' :: rest) hvw
  have h5 : skipWs (',' :: '\n' :: rest) = ',' :: '\n' :: rest := by
    unfold skipWs
    rw [List.dropWhile_cons_of_neg (by decide)]
  have h6 : skipWs ('\n' :: rest) = rest := by
    unfold skipWs at hws ⊢
    rw [List.dropWhile_cons_of_pos (by decide)]
    exact hws
  simp only [parseMembersAux, h1, h2, h3, h4, h5, h6, hrec]

/-- JSON members of a nonempty mapping start with a double quote, so leading
whitespace skipping leaves them unchanged. -/
theorem dropWs_entriesJson (k2 v2 : LC) (tl : List (LC × LC)) :
    skipWs (entriesJson ((k2, v2) :: tl) ++ ['\x7d']) =
      entriesJson ((k2, v2) :: tl) ++ ['\x7d'] := by
  unfold skipWs
  cases tl with
  | nil =>
    rw [show entriesJson [(k2, v2)] =
      '"' :: (k2 ++ ('"' :: ':' :: ' ' :: '"' :: (v2 ++ ('"' :: ['\n'])))) from rfl,
      List.cons_append, List.dropWhile_cons_of_neg (by decide)]
  | cons hd tl2 =>
    obtain ⟨k3, v3⟩ := hd
    rw [show entriesJson ((k2, v2) :: (k3, v3) :: tl2) =
      '"' :: (k2 ++ ('"' :: ':' :: ' ' :: '"' ::
        (v2 ++ ('"' :: ',' :: '\n' :: entriesJson ((k3, v3) :: tl2))))) from rfl,
      List.cons_append, List.dropWhile_cons_of_neg (by decide)]

/-- The member parser reads the rendered JSON members of a nonempty mapping
and stops after the closing brace. -/
theorem parseMembersAux_entries (kvs : List (LC × LC))
    (hwf : ∀ p ∈ kvs, goodKey p.1 = true ∧ goodVal p.2 = true) :
    kvs ≠ [] → ∀ fuel, (entriesJson kvs ++ ['\x7d']).length ≤ fuel →
    parseMembersAux fuel (entriesJson kvs ++ ['\x7d']) = some (kvs, []) := by
  induction kvs with
  | nil => exact fun hne => absurd rfl hne
  | cons hd tl ih =>
    intro hne fuel hfuel
    obtain ⟨k, v⟩ := hd
    obtain ⟨hk, hv⟩ := hwf (k, v) (List.mem_cons_self _ _)
    obtain ⟨hkne, hkw⟩ := goodKey_spec k hk
    have hvw := goodVal_spec v hv
    cases fuel with
    | zero =>
      rw [List.length_append] at hfuel
      simp at hfuel
    | succ fuel' =>
      cases tl with
      | nil =>
        rw [show entriesJson [(k, v)] ++ ['\x7d'] =
            '"' :: (k ++ ('"' :: ':' :: ' ' :: '"' ::
              (v ++ ('"' :: ('\n' :: ['\x7d']))))) from by
          rw [show entriesJson [(k, v)] =
            '"' :: (k ++ ('"' :: ':' :: ' ' :: '"' :: (v ++ ('"' :: ['\n'])))) from rfl]
          simp [List.append_assoc]]
        exact parseMembersAux_last fuel' k v hkw hvw
      | cons hd2 tl2 =>
        obtain ⟨k2, v2⟩ := hd2
        have hL : (entriesJson ((k, v) :: (k2, v2) :: tl2) ++ ['\x7d']).length =
            k.length + v.length + 8 +
              (entriesJson ((k2, v2) :: tl2) ++ ['\x7d']).length := by
          rw [show entriesJson ((k, v) :: (k2, v2) :: tl2) =
            '"' :: (k ++ ('"' :: ':' :: ' ' :: '"' ::
              (v ++ ('"' :: ',' :: '\n' :: entriesJson ((k2, v2) :: tl2))))) from rfl]
          simp [List.length_append, List.length_cons]
          omega
        rw [show entriesJson ((k, v) :: (k2, v2) :: tl2) ++ ['\x7d'] =
            '"' :: (k ++ ('"' :: ':' :: ' ' :: '"' ::
              (v ++ ('"' :: (',' :: '\n' ::
                (entriesJson ((k2, v2) :: tl2) ++ ['\x7d'])))))) from by
          rw [show entriesJson ((k, v) :: (k2, v2) :: tl2) =
            '"' :: (k ++ ('"' :: ':' :: ' ' :: '"' ::
              (v ++ ('"' :: ',' :: '\n' :: entriesJson ((k2, v2) :: tl2))))) from rfl]
          simp [List.append_assoc]]
        exact parseMembersAux_cons fuel' k v _ _ hkw hvw
          (dropWs_entriesJson k2 v2 tl2)
          (ih (fun p hp => hwf p (List.mem_cons_of_mem _ hp)) (by simp) fuel'
            (by omega))

/-- The member parser consumes a final member directly followed by the
closing brace. -/
theorem parseMembersAux_lastTight (fuel : Nat) (k v : LC)
    (hkw : ∀ c ∈ k, isWordChar c = true) (hvw : ∀ c ∈ v, isWordChar c = true) :
    parseMembersAux (fuel + 1)
      ('"' :: (k ++ ('"' :: ':' :: ' ' :: '"' :: (v ++ ('"' :: ['\x7d']))))) =
      some ([(k, v)], []) := by
  have h1 := parseJsonString_at k (':' :: ' ' :: '"' :: (v ++ ('"' :: ['\x7d']))) hkw
  have h2 : skipWs (':' :: ' ' :: '"' :: (v ++ ('"' :: ['\x7d']))) =
      ':' :: ' ' :: '"' :: (v ++ ('"' :: ['\x7d'])) := by
    unfold skipWs
    rw [List.dropWhile_cons_of_neg (by decide)]
  have h3 : skipWs (' ' :: '"' :: (v ++ ('"' :: ['\x7d']))) =
      '"' :: (v ++ ('"' :: ['\x7d'])) := by
    unfold skipWs
    rw [List.dropWhile_cons_of_pos (by decide), List.dropWhile_cons_of_neg (by decide)]
  have h4 := parseJsonString_at v ['\x7d'] hvw
  have h5 : skipWs ['\x7d'] = ['\x7d'] := by decide
  simp only [parseMembersAux, h1, h2, h3, h4, h5]

/-- The member parser consumes a `"key": "value", ` member (comma-space
separator) and continues on the remainder. -/
theorem parseMembersAux_consSp (fuel : Nat) (k v rest : LC) (kvs : List (LC × LC))
    (hkw : ∀ c ∈ k, isWordChar c = true) (hvw : ∀ c ∈ v, isWordChar c = true)
    (hws : skipWs rest = rest) (hrec : parseMembersAux fuel rest = some (kvs, [])) :
    parseMembersAux (fuel + 1)
      ('"' :: (k ++ ('"' :: ':' :: ' ' :: '"' :: (v ++ ('"' :: (',' :: ' ' :: rest)))))) =
      some ((k, v) :: kvs, []) := by
  have h1 := parseJsonString_at k (':' :: ' ' :: '"' :: (v ++ ('"' :: (',' :: ' ' :: rest)))) hkw
  have h2 : skipWs (':' :: ' ' :: '"' :: (v ++ ('"' :: (',' :: ' ' :: rest)))) =
      ':' :: ' ' :: '"' :: (v ++ ('"' :: (',' :: ' ' :: rest))) := by
    unfold skipWs
    rw [List.dropWhile_cons_of_neg (by decide)]
  have h3 : skipWs (' ' :: '"' :: (v ++ ('"' :: (',' :: ' ' :: rest)))) =
      '"' :: (v ++ ('"' :: (',' :: ' ' :: rest))) := by
    unfold skipWs
    rw [List.dropWhile_cons_of_pos (by decide), List.dropWhile_cons_of_neg (by decide)]
  have h4 := parseJsonString_at v (',' :: ' ' :: rest) hvw
  have h5 : skipWs (',' :: ' ' :: rest) = ',' :: ' ' :: rest := by
    unfold skipWs
    rw [List.dropWhile_cons_of_neg (by decide)]
  have h6 : skipWs (' ' :: rest) = rest := by
    unfold skipWs at hws ⊢
    rw [List.dropWhile_cons_of_pos (by decide)]
    exact hws
  simp only [parseMembersAux, h1, h2, h3, h4, h5, h6, hrec]

/-- Joined members of a nonempty mapping start with a double quote, so
leading whitespace skipping leaves them unchanged. -/
theorem dropWs_joinMembers (k2 v2 : LC) (tl : List (LC × LC)) :
    skipWs (joinJsonMembers ((k2, v2) :: tl) ++ ['\x7d']) =
      joinJsonMembers ((k2, v2) :: tl) ++ ['\x7d'] := by
  unfold skipWs
  cases tl with
  | nil =>
    rw [show joinJsonMembers [(k2, v2)] =
      '"' :: (k2 ++ ('"' :: ':' :: ' ' :: '"' :: (v2 ++ ['"']))) from rfl,
      List.cons_append, List.dropWhile_cons_of_neg (by decide)]
  | cons hd tl2 =>
    obtain ⟨k3, v3⟩ := hd
    rw [show joinJsonMembers ((k2, v2) :: (k3, v3) :: tl2) =
      '"' :: (k2 ++ ('"' :: ':' :: ' ' :: '"' ::
        (v2 ++ ('"' :: ',' :: ' ' :: joinJsonMembers ((k3, v3) :: tl2))))) from rfl,
      List.cons_append, List.dropWhile_cons_of_neg (by decide)]

/-- The member parser reads the joined members of the already-valid JSON
document and stops after the closing brace. -/
theorem parseMembersAux_members (kvs : List (LC × LC))
    (hwf : ∀ p ∈ kvs, goodKey p.1 = true ∧ goodVal p.2 = true) :
    kvs ≠ [] → ∀ fuel, (joinJsonMembers kvs ++ ['\x7d']).length ≤ fuel →
    parseMembersAux fuel (joinJsonMembers kvs ++ ['\x7d']) = some (kvs, []) := by
  induction kvs with
  | nil => exact fun hne => absurd rfl hne
  | cons hd tl ih =>
    intro hne fuel hfuel
    obtain ⟨k, v⟩ := hd
    obtain ⟨hk, hv⟩ := hwf (k, v) (List.mem_cons_self _ _)
    obtain ⟨hkne, hkw⟩ := goodKey_spec k hk
    have hvw := goodVal_spec v hv
    cases fuel with
    | zero =>
      rw [List.length_append] at hfuel
      simp at hfuel
    | succ fuel' =>
      cases tl with
      | nil =>
        rw [show joinJsonMembers [(k, v)] ++ ['\x7d'] =
            '"' :: (k ++ ('"' :: ':' :: ' ' :: '"' ::
              (v ++ ('"' :: ['\x7d'])))) from by
          rw [show joinJsonMembers [(k, v)] =
            '"' :: (k ++ ('"' :: ':' :: ' ' :: '"' :: (v ++ ['"']))) from rfl]
          simp [List.append_assoc]]
        exact parseMembersAux_lastTight fuel' k v hkw hvw
      | cons hd2 tl2 =>
        obtain ⟨k2, v2⟩ := hd2
        have hL : (joinJsonMembers ((k, v) :: (k2, v2) :: tl2) ++ ['\x7d']).length =
            k.length + v.length + 8 +
              (joinJsonMembers ((k2, v2) :: tl2) ++ ['\x7d']).length := by
          rw [show joinJsonMembers ((k, v) :: (k2, v2) :: tl2) =
            '"' :: (k ++ ('"' :: ':' :: ' ' :: '"' ::
              (v ++ ('"' :: ',' :: ' ' :: joinJsonMembers ((k2, v2) :: tl2))))) from rfl]
          simp [List.length_append, List.length_cons]
          omega
        rw [show joinJsonMembers ((k, v) :: (k2, v2) :: tl2) ++ ['\x7d'] =
            '"' :: (k ++ ('"' :: ':' :: ' ' :: '"' ::
              (v ++ ('"' :: (',' :: ' ' ::
                (joinJsonMembers ((k2, v2) :: tl2) ++ ['\x7d'])))))) from by
          rw [show joinJsonMembers ((k, v) :: (k2, v2) :: tl2) =
            '"' :: (k ++ ('"' :: ':' :: ' ' :: '"' ::
              (v ++ ('"' :: ',' :: ' ' :: joinJsonMembers ((k2, v2) :: tl2))))) from rfl]
          simp [List.append_assoc]]
        exact parseMembersAux_consSp fuel' k v _ _ hkw hvw
          (dropWs_joinMembers k2 v2 tl2)
          (ih (fun p hp => hwf p (List.mem_cons_of_mem _ hp)) (by simp) fuel'
            (by omega))

/-- The document parser on a brace-wrapped member block: whitespace after
the opening brace, a nonempty member run starting with a quote, the closing
brace. -/
theorem parseJsonFlat_obj (w E : LC) (kvs : List (LC × LC))
    (hw : ∀ c ∈ w, isJsonWs c = true)
    (hE : ∃ Y, E = '"' :: Y)
    (hpm : parseMembers (E ++ ['\x7d']) = some (kvs, [])) :
    parseJsonFlat ('\x7b' :: (w ++ (E ++ ['\x7d']))) = some kvs := by
  obtain ⟨Y, hY⟩ := hE
  unfold parseJsonFlat
  have h0 : skipWs ('\x7b' :: (w ++ (E ++ ['\x7d']))) = '\x7b' :: (w ++ (E ++ ['\x7d'])) := by
    unfold skipWs
    rw [List.dropWhile_cons_of_neg (by decide)]
  simp only [h0]
  have h1 : skipWs (w ++ (E ++ ['\x7d'])) = E ++ ['\x7d'] := by
    unfold skipWs
    rw [dropWhile_append_all w _ hw, hY, List.cons_append,
      List.dropWhile_cons_of_neg (by decide)]
  simp only [h1]
  rw [hY, List.cons_append]
  have hpm' : parseMembers ('"' :: (Y ++ ['\x7d'])) = some (kvs, []) := by
    rw [← List.cons_append, ← hY]
    exact hpm
  simp only [hpm']
  simp [skipWs]

/-- The document parser accepts the normalized extracted document and
returns the mapping. -/
theorem parseJsonFlat_entriesDoc (kvs : List (LC × LC))
    (hwf : ∀ p ∈ kvs, goodKey p.1 = true ∧ goodVal p.2 = true) :
    parseJsonFlat ('\x7b' :: ' ' :: '\n' :: (entriesJson kvs ++ ['\x7d'])) = some kvs := by
  cases kvs with
  | nil => decide
  | cons hd tl =>
    obtain ⟨k, v⟩ := hd
    rw [show ('\x7b' :: ' ' :: '\n' :: (entriesJson ((k, v) :: tl) ++ ['\x7d']) : LC) =
      '\x7b' :: (([' ', '\n'] : LC) ++ (entriesJson ((k, v) :: tl) ++ ['\x7d'])) from rfl]
    refine parseJsonFlat_obj [' ', '\n'] _ _ ?_ ?_ ?_
    · intro c hc
      rcases List.mem_cons.mp hc with rfl | hc2
      · decide
      · rcases List.mem_cons.mp hc2 with rfl | hc3
        · decide
        · exact absurd hc3 (by simp)
    · cases tl with
      | nil => exact ⟨_, rfl⟩
      | cons hd2 tl2 =>
        obtain ⟨k2, v2⟩ := hd2
        exact ⟨_, rfl⟩
    · unfold parseMembers
      exact parseMembersAux_entries ((k, v) :: tl) hwf (by simp) _ (Nat.le_refl _)

/-- The document parser accepts the already-valid JSON document and returns
the mapping. -/
theorem parseJsonFlat_membersDoc (kvs : List (LC × LC))
    (hwf : ∀ p ∈ kvs, goodKey p.1 = true ∧ goodVal p.2 = true) :
    parseJsonFlat (renderJsonDoc kvs) = some kvs := by
  cases kvs with
  | nil => decide
  | cons hd tl =>
    obtain ⟨k, v⟩ := hd
    rw [show renderJsonDoc ((k, v) :: tl) =
      '\x7b' :: (([] : LC) ++ (joinJsonMembers ((k, v) :: tl) ++ ['\x7d'])) from by
      unfold renderJsonDoc
      rw [List.nil_append]]
    refine parseJsonFlat_obj [] _ _ ?_ ?_ ?_
    · intro c hc
      exact absurd hc (by simp)
    · cases tl with
      | nil => exact ⟨_, rfl⟩
      | cons hd2 tl2 =>
        obtain ⟨k2, v2⟩ := hd2
        exact ⟨_, rfl⟩
    · unfold parseMembers
      exact parseMembersAux_members ((k, v) :: tl) hwf (by simp) _ (Nat.le_refl _)

/-- `extractObject` up to its catch succeeds on a well-formed embedded
literal and recovers exactly the rendered pairs. -/
theorem extractObjectCore_embed (kvs : List (LC × LC))
    (hwf : ∀ p ∈ kvs, goodKey p.1 = true ∧ goodVal p.2 = true) :
    extractObjectCore (renderEmbedded kvs) = some kvs := by
  unfold extractObjectCore
  have hslice : extractSlice (renderEmbedded kvs) =
      some ('\x7b' :: ((str " // chain ids\n" ++ renderEntriesE kvs) ++ ['\x7d'])) := by
    rw [show renderEmbedded kvs = str "export default " ++
        ('\x7b' :: ((str " // chain ids\n" ++ renderEntriesE kvs) ++ ('\x7d' :: str ";\n"))) from by
      unfold renderEmbedded
      rw [show str "export default \x7b // chain ids\n" =
        str "export default " ++ ('\x7b' :: str " // chain ids\n") from rfl,
        show str "\x7d;\n" = '\x7d' :: str ";\n" from rfl]
      simp [List.append_assoc]]
    exact extractSlice_embed (str "export default ") _ (str ";\n") (by decide) (by decide)
  simp only [hslice]
  rw [show ('\x7b' :: ((str " // chain ids\n" ++ renderEntriesE kvs) ++ ['\x7d']) : LC) =
    '\x7b' :: (str " // chain ids\n" ++ (renderEntriesE kvs ++ ['\x7d'])) from by
    simp [List.append_assoc]]
  rw [stripComments_slice kvs hwf]
  rw [stc_cons_of_ne '\x7b' _ (by decide), stc_cons_of_ne ' ' _ (by decide),
    stc_cons_of_ne '\n' _ (by decide), stc_entries kvs hwf]
  rw [quoteKeys_doc kvs hwf]
  rw [show toDoubleQuotes ('\x7b' :: ' ' :: '\n' :: (entriesQ kvs ++ ['\x7d'])) =
      '\x7b' :: ' ' :: '\n' :: toDoubleQuotes (entriesQ kvs ++ ['\x7d']) from by
    unfold toDoubleQuotes
    simp]
  rw [toDouble_entries kvs hwf]
  exact parseJsonFlat_entriesDoc kvs hwf

/-- C4: for every input text containing one well-formed embedded JavaScript
object literal (bare word-character keys, single-quoted word-character
values), extracting the slice between the first opening brace and the last
closing brace and applying the normalization steps (strip line comments,
strip trailing commas, quote bare identifier keys, convert single quotes to
double quotes) then parsing yields a mapping equal to the literal's
key/value pairs — the same result as directly parsing the equivalent
already-valid JSON document with those pairs. -/
theorem extractObject_refines_direct_parse (kvs : List (LC × LC))
    (hwf : ∀ p ∈ kvs, goodKey p.1 = true ∧ goodVal p.2 = true) :
    extractObject (renderEmbedded kvs) = kvs ∧
      parseJsonFlat (renderJsonDoc kvs) = some kvs := by
  refine ⟨?_, parseJsonFlat_membersDoc kvs hwf⟩
  unfold extractObject
  rw [extractObjectCore_embed kvs hwf]
  rfl

/-- Closed witness for C4 on the mapping 1 to ethereum, 10 to optimism. -/
theorem extractObject_refines_direct_parse_witness :
    (∀ p ∈ [(str "1", str "ethereum"), (str "10", str "optimism")],
      goodKey p.1 = true ∧ goodVal p.2 = true) ∧
    (extractObject (renderEmbedded [(str "1", str "ethereum"), (str "10", str "optimism")]) =
        [(str "1", str "ethereum"), (str "10", str "optimism")] ∧
      parseJsonFlat (renderJsonDoc [(str "1", str "ethereum"), (str "10", str "optimism")]) =
        some [(str "1", str "ethereum"), (str "10", str "optimism")]) :=
  ⟨by decide, extractObject_refines_direct_parse
    [(str "1", str "ethereum"), (str "10", str "optimism")] (by decide)⟩

end EthTools
